import Mathlib

/-! Trust-chain resolver of go-oidfed: embedding and verification

Shallow embedding of `pkg/trustresolver.go` (tree construction, signature
verification with in-place pruning, chain extraction, cached statement
retrieval) and of the set helpers of `internal/utils/slices.go`.

Conventions of the embedding
* a Go pointer that may be nil is an `Option`; a Go slice is an
  `Option (List _)`, `none` being the nil slice;
* a runtime failure (nil dereference) is the outer `none` of a result;
* the world outside the resolver (cache backend, obtainer, clock, scheduler of
  detached tasks) is an explicit state `σ` threaded through every call;
* `resolve` takes a recursion budget, because the Go recursion need not
  terminate on every obtainer;
* what `reflect.DeepEqual` answers on two elements is an argument of the set
  helpers; their properties are stated with element values taken up to deep
  equality, a value being deeply equal to itself or, as the NaN, not.
-/

namespace OidFed

/-! ## Data model -/

/-- Raw bytes of a signed statement. -/
abbrev Bytes := List Nat

/-- Modelled from the spec: the key set type `jwx.JWKS` (declared outside the files at hand).
`Set` is `none` for Go's nil `jwk.Set`, the case `verifySignatures` tests for. -/
structure JWKS where
  Set : Option (List String)
  deriving DecidableEq, Repr

/-- Modelled from the spec: the `federation_entity` metadata partition, of which the resolver
reads the fetch endpoint only. -/
structure FederationEntityMetadata where
  FederationFetchEndpoint : String
  deriving DecidableEq, Repr

/-- Modelled from the spec: the type `Metadata` (declared outside the files at hand): metadata
partitioned by entity type tag; `FederationEntity` is a pointer, the other partitions are kept as
tagged payloads. -/
structure Metadata where
  FederationEntity : Option FederationEntityMetadata
  Others : List (String × String)
  deriving DecidableEq, Repr

/-- Modelled from the spec: the type `EntityStatement` (declared outside the files at hand), with
the fields the resolver reads. Times are Unix seconds. -/
structure EntityStatement where
  Issuer : String
  Subject : String
  IssuedAt : Int
  ExpiresAt : Int
  AuthorityHints : List String
  JWKS : JWKS
  Metadata : Option Metadata
  deriving DecidableEq, Repr

/-- Modelled from the spec: the method `EntityStatement.TimeValid` (declared outside the files at
hand): a statement is time-valid when `now ∈ [issued_at, expires_at]`. -/
def EntityStatement.TimeValid (now : Int) (e : EntityStatement) : Bool :=
  decide (e.IssuedAt ≤ now ∧ now ≤ e.ExpiresAt)

/-- Modelled from the spec: the type `TrustAnchor` (declared outside the files at hand): an
identifier plus an optional key set. -/
structure TrustAnchor where
  EntityID : String
  JWKS : JWKS
  deriving DecidableEq, Repr

/-- Modelled from the spec: the method `TrustAnchors.EntityIDs` (declared outside the files at
hand): the identifiers of the anchors, in order. -/
def EntityIDs (anchors : List TrustAnchor) : List String :=
  anchors.map (fun ta => ta.EntityID)

/-- `TrustChain` is `[]*EntityStatement`: a list of statement pointers. -/
abbrev TrustChain := List (Option EntityStatement)

/-- `trustTree` of the source: two statement pointers and a slice of sub-trees. -/
inductive trustTree where
  | mk (Entity : Option EntityStatement) (Subordinate : Option EntityStatement)
      (Authorities : Option (List trustTree))

/-- Field `Entity`. -/
def trustTree.Entity : trustTree → Option EntityStatement
  | .mk e _ _ => e

/-- Field `Subordinate`. -/
def trustTree.Subordinate : trustTree → Option EntityStatement
  | .mk _ s _ => s

/-- Field `Authorities`. -/
def trustTree.Authorities : trustTree → Option (List trustTree)
  | .mk _ _ a => a

/-- The zero value of `trustTree`: what `make([]trustTree, n)` fills a fresh slice with, and what
the tree of a fresh `TrustResolver` is. -/
def trustTree.zero : trustTree := .mk none none none

/-- `TrustResolver` of the source. -/
structure TrustResolver where
  TrustAnchors : List TrustAnchor
  StartingEntity : String
  Types : List String
  trustTree : trustTree

/-- A resolver as a caller constructs it: the unexported tree is the zero value. -/
def TrustResolver.new (anchors : List TrustAnchor) (starting : String) (types : List String) :
    TrustResolver :=
  { TrustAnchors := anchors, StartingEntity := starting, Types := types, trustTree := trustTree.zero }

/-- The collaborators of the resolver that live outside the files at hand, over an explicit world
state `σ`: the clock, the cache backend (`cache.Get`, `cache.Set`), the statement obtainer, the
parser, the scheduler of detached tasks (`go func()`), the metadata pruning helper, the signature
check and the metadata-policy check. Every theorem below holds for every value of this structure. -/
structure Env (σ : Type) where
  now : σ → Int
  cacheGet : String × String → σ → Except String (Option EntityStatement)
  cacheSet : String × String → EntityStatement → Int → σ → σ
  obtainerGetEntityConfiguration : String → σ → Except String Bytes × σ
  obtainerFetchEntityStatement : String → String → String → σ → Except String Bytes × σ
  ParseEntityStatement : Bytes → Except String EntityStatement
  detach : (σ → σ) → σ → σ
  NilAllExceptByTag : Metadata → List String → Metadata
  Verify : EntityStatement → JWKS → Bool
  TrustChainsFilterValidMetadata : TrustChain → Bool

/-! ## `internal/utils` -/

/-- `SliceContains` of `slices.go`: linear search with early return. The resolver calls it on
strings, whose `==` is equality. -/
def SliceContains {C : Type} [DecidableEq C] (v : C) : List C → Bool
  | [] => false
  | s :: rest => if s = v then true else SliceContains v rest

/-- Modelled from the spec: the variadic helper `utils.Equal` (declared outside the files at hand):
true when every further value equals the first one, as in `issuer == subject == aID`. -/
def Equal {C : Type} [DecidableEq C] (v : C) : List C → Bool
  | [] => true
  | w :: rest => if w = v then Equal v rest else false

/-! ## Cached retrieval of statements -/

/-- `cacheGracePeriod = time.Hour`, in seconds. -/
def cacheGracePeriod : Int := 3600

/-- `entityStmtCacheSet`: store under the key of `(subID, issID)` with the time left until expiry
as TTL; an error of the backend is only logged. -/
def entityStmtCacheSet {σ : Type} (E : Env σ) (subID issID : String) (stmt : EntityStatement)
    (s : σ) : σ :=
  E.cacheSet (subID, issID) stmt (stmt.ExpiresAt - E.now s) s

/-- `entityStmtCacheGet`: nil on a backend error and on a miss. -/
def entityStmtCacheGet {σ : Type} (E : Env σ) (subID issID : String) (s : σ) :
    Option EntityStatement :=
  match E.cacheGet (subID, issID) s with
  | .error _ => none
  | .ok none => none
  | .ok (some stmt) => some stmt

/-- `obtainAndSetEntityStatementOrConfiguration`: fetch, parse, cache on success. -/
def obtainAndSetEntityStatementOrConfiguration {σ : Type} (E : Env σ) (subID issID : String)
    (obtainerFnc : σ → Except String Bytes × σ) (s : σ) : Except String EntityStatement × σ :=
  match obtainerFnc s with
  | (.error err, s1) => (.error err, s1)
  | (.ok body, s1) =>
    match E.ParseEntityStatement body with
    | .error err => (.error err, s1)
    | .ok stmt => (.ok stmt, entityStmtCacheSet E subID issID stmt s1)

/-- `getEntityStatementOrConfiguration`: on a cache hit return the cached statement and hand the
refresh task to the scheduler; on a miss fetch synchronously. -/
def getEntityStatementOrConfiguration {σ : Type} (E : Env σ) (subID issID : String)
    (obtainerFnc : σ → Except String Bytes × σ) (s : σ) : Except String EntityStatement × σ :=
  match entityStmtCacheGet E subID issID s with
  | some stmt =>
    (.ok stmt,
      E.detach
        (fun s1 =>
          if stmt.ExpiresAt - E.now s1 ≤ cacheGracePeriod then
            (obtainAndSetEntityStatementOrConfiguration E subID issID obtainerFnc s1).2
          else s1)
        s)
  | none => obtainAndSetEntityStatementOrConfiguration E subID issID obtainerFnc s

/-- `GetEntityConfiguration`: the entity configuration of `entityID`, keyed `(entityID, entityID)`. -/
def GetEntityConfiguration {σ : Type} (E : Env σ) (entityID : String) (s : σ) :
    Except String EntityStatement × σ :=
  getEntityStatementOrConfiguration E entityID entityID
    (E.obtainerGetEntityConfiguration entityID) s

/-- `FetchEntityStatement`: the statement of `issID` about `subID` from a fetch endpoint. -/
def FetchEntityStatement {σ : Type} (E : Env σ) (fetchEndpoint subID issID : String) (s : σ) :
    Except String EntityStatement × σ :=
  getEntityStatementOrConfiguration E subID issID
    (E.obtainerFetchEntityStatement fetchEndpoint subID issID) s

/-! ## Tree construction -/

/-- Body of the loop of `trustTree.resolve` for one authority hint `aID` of the node whose entity
is `ent`. The inner `none` is a `continue`; the outer `none` is an exhausted recursion budget of
`recurse`, which stands for `tt.resolve(anchors)`. -/
def resolveHint {σ : Type} (E : Env σ) (recurse : trustTree → σ → Option (trustTree × σ))
    (ent : EntityStatement) (aID : String) (s : σ) : Option (Option trustTree × σ) :=
  match GetEntityConfiguration E aID s with
  | (.error _, s1) => some (none, s1)
  | (.ok aStmt, s1) =>
    if !Equal aStmt.Issuer [aStmt.Subject, aID] || !aStmt.TimeValid (E.now s1) then some (none, s1)
    else
      match aStmt.Metadata with
      | none => some (none, s1)
      | some md =>
        match md.FederationEntity with
        | none => some (none, s1)
        | some fe =>
          if fe.FederationFetchEndpoint = "" then some (none, s1)
          else
            match FetchEntityStatement E fe.FederationFetchEndpoint ent.Issuer aID s1 with
            | (.error _, s2) => some (none, s2)
            | (.ok subordinateStmt, s2) =>
              if subordinateStmt.Issuer ≠ aID || subordinateStmt.Subject ≠ ent.Issuer
                  || !subordinateStmt.TimeValid (E.now s2) then some (none, s2)
              else
                match recurse (.mk (some aStmt) (some subordinateStmt) none) s2 with
                | none => none
                | some (tt, s3) => some (some tt, s3)

/-- The loop `for i, aID := range t.Entity.AuthorityHints` of `trustTree.resolve`: `i` is the
index of the next hint, `auths` the current `t.Authorities`; a child that is built is written to
slot `i`. -/
def resolveLoop {σ : Type} (E : Env σ) (recurse : trustTree → σ → Option (trustTree × σ))
    (ent : EntityStatement) :
    List String → Nat → Option (List trustTree) → σ → Option (Option (List trustTree) × σ)
  | [], _, auths, s => some (auths, s)
  | aID :: rest, i, auths, s =>
    match resolveHint E recurse ent aID s with
    | none => none
    | some (none, s1) => resolveLoop E recurse ent rest (i + 1) auths s1
    | some (some tt, s1) =>
      resolveLoop E recurse ent rest (i + 1) (auths.map (fun l => l.set i tt)) s1

/-- `trustTree.resolve`, with a budget on the depth of the recursion (`none`: budget exhausted). -/
def resolve {σ : Type} (E : Env σ) (anchors : List TrustAnchor) :
    Nat → trustTree → σ → Option (trustTree × σ)
  | 0, _, _ => none
  | fuel + 1, .mk ent sub auths, s =>
    match ent with
    | none => some (.mk ent sub auths, s)
    | some e =>
      if SliceContains e.Issuer (EntityIDs anchors) then some (.mk ent sub auths, s)
      else
        match resolveLoop E (resolve E anchors fuel) e e.AuthorityHints 0
            (if e.AuthorityHints.length > 0 then
              some (List.replicate e.AuthorityHints.length trustTree.zero)
             else auths) s with
        | none => none
        | some (auths1, s1) => some (.mk ent sub auths1, s1)

/-- The statement `starting` after `if len(r.Types) > 0 { utils.NilAllExceptByTag(starting.Metadata,
r.Types) }`: the helper works through the `Metadata` pointer, so nothing but the metadata of the
statement can change, and a nil pointer stays nil. -/
def applyTypes {σ : Type} (E : Env σ) (types : List String) (starting : EntityStatement) :
    EntityStatement :=
  if types.length > 0 then
    { starting with Metadata := starting.Metadata.map (fun md => E.NilAllExceptByTag md types) }
  else starting

/-- `TrustResolver.Resolve`: fetch the starting configuration, prune its metadata by `Types`
(in place, so only the `Metadata` of the stored statement changes), store it as the root entity
and build the tree. A failed fetch returns with the resolver untouched. -/
def TrustResolver.Resolve {σ : Type} (E : Env σ) (fuel : Nat) (r : TrustResolver) (s : σ) :
    Option (TrustResolver × σ) :=
  match GetEntityConfiguration E r.StartingEntity s with
  | (.error _, s1) => some (r, s1)
  | (.ok starting, s1) =>
    match resolve E r.TrustAnchors fuel
        (.mk (some (applyTypes E r.Types starting))
          r.trustTree.Subordinate r.trustTree.Authorities) s1 with
    | none => none
    | some (t, s2) => some ({ r with trustTree := t }, s2)

/-! ## Signature verification -/

/-- The loop `for _, ta := range anchors` of `trustTree.verifySignatures`, entered when the
subordinate `sub` is present. Outer `none`: `t.Entity` is read while nil. Inner `none`: no anchor
matched. Inner `some b`: the first matching anchor decided the result `b`. -/
def verifyAnchors (verify : EntityStatement → JWKS → Bool) (ent : Option EntityStatement)
    (sub : EntityStatement) : List TrustAnchor → Option (Option Bool)
  | [] => some none
  | ta :: rest =>
    match ent with
    | none => none
    | some e =>
      if Equal ta.EntityID [e.Issuer, e.Subject, sub.Issuer] then
        some (some (verify e (if ta.JWKS.Set = none then e.JWKS else ta.JWKS)
          && verify sub (if ta.JWKS.Set = none then e.JWKS else ta.JWKS)))
      else verifyAnchors verify ent sub rest

/-- The first statement of `trustTree.verifySignatures`: `if t.Subordinate != nil` guards the loop
over the anchors. -/
def anchorCase (verify : EntityStatement → JWKS → Bool) (anchors : List TrustAnchor)
    (ent sub : Option EntityStatement) : Option (Option Bool) :=
  match sub with
  | none => some none
  | some sb => verifyAnchors verify ent sb anchors

mutual
/-- `trustTree.verifySignatures`: the result and the tree after the in-place pruning; `none` is a
nil dereference. -/
def verifySignatures (verify : EntityStatement → JWKS → Bool) (anchors : List TrustAnchor) :
    trustTree → Option (Bool × trustTree)
  | .mk ent sub auths =>
    match anchorCase verify anchors ent sub with
    | none => none
    | some (some b) => some (b, .mk ent sub auths)
    | some none =>
      match auths with
      | none => some (false, .mk ent sub none)
      | some l =>
        match verifyLoop verify anchors ent sub l l 0 with
        | none => none
        | some (arr, iValid) =>
          some (decide ((arr.take iValid).length > 0), .mk ent sub (some (arr.take iValid)))
/-- The loop `for _, tt := range t.Authorities` of `trustTree.verifySignatures`: the first list is
what remains to be visited, `arr` the backing array of `t.Authorities`, `iValid` the write index. -/
def verifyLoop (verify : EntityStatement → JWKS → Bool) (anchors : List TrustAnchor)
    (ent sub : Option EntityStatement) :
    List trustTree → List trustTree → Nat → Option (List trustTree × Nat)
  | [], arr, iValid => some (arr, iValid)
  | tt :: rest, arr, iValid =>
    match verifySignatures verify anchors tt with
    | none => none
    | some (false, _) => verifyLoop verify anchors ent sub rest arr iValid
    | some (true, tt1) =>
      match tt1.Subordinate with
      | none => none
      | some tsub =>
        match ent with
        | none => none
        | some e =>
          if !verify e tsub.JWKS then verifyLoop verify anchors ent sub rest arr iValid
          else if (match sub with
              | none => false
              | some sb => !verify sb tsub.JWKS) then
            verifyLoop verify anchors ent sub rest arr iValid
          else verifyLoop verify anchors ent sub rest (arr.set iValid tt1) (iValid + 1)
end

/-- `TrustResolver.VerifySignatures`: the boolean result is dropped. -/
def TrustResolver.VerifySignatures (verify : EntityStatement → JWKS → Bool) (r : TrustResolver) :
    Option TrustResolver :=
  match verifySignatures verify r.TrustAnchors r.trustTree with
  | none => none
  | some (_, t) => some { r with trustTree := t }

/-! ## Chain extraction -/

mutual
/-- `trustTree.chains`. -/
def chains : trustTree → List TrustChain
  | .mk _ sub none => if sub = none then [] else [[sub]]
  | .mk _ sub (some l) => chainsLoop sub l []
/-- The loop `for _, a := range t.Authorities` of `trustTree.chains`, `acc` being the named
result `chains`. -/
def chainsLoop (sub : Option EntityStatement) : List trustTree → List TrustChain → List TrustChain
  | [], acc => acc
  | a :: rest, acc =>
    if sub = none then chainsLoop sub rest (acc ++ chains a)
    else
      chainsLoop sub rest
        ((chains a).foldl (fun acc1 aChain => acc1 ++ [[sub] ++ aChain]) acc)
end

/-- `TrustResolver.Chains`: every chain of the tree, with the root entity put in front
(`chains` returns nil exactly when it returns no chain). -/
def TrustResolver.Chains (r : TrustResolver) : List TrustChain :=
  if chains r.trustTree = [] then []
  else (chains r.trustTree).foldl (fun acc c => acc ++ [[r.trustTree.Entity] ++ c]) []

/-- Modelled from the spec: the method `TrustChains.Filter` (declared outside the files at hand):
keeps the chains the given check accepts. -/
def Filter (cs : List TrustChain) (check : TrustChain → Bool) : List TrustChain :=
  cs.filter check

/-- `TrustResolver.ResolveToValidChains`: `Resolve`, `VerifySignatures`, then the chains that pass
the metadata-policy check. The outer `none` is an exhausted budget or a runtime failure. -/
def TrustResolver.ResolveToValidChains {σ : Type} (E : Env σ) (fuel : Nat) (r : TrustResolver)
    (s : σ) : Option (List TrustChain × σ) :=
  match r.Resolve E fuel s with
  | none => none
  | some (r1, s1) =>
    match r1.VerifySignatures E.Verify with
    | none => none
    | some r2 => some (Filter r2.Chains E.TrustChainsFilterValidMetadata, s1)

/-! ## Reference notions the properties are stated with -/

/-- The key set an anchor verifies with: its configured one if there is one, else the one of its
self-signed configuration `cfg`. -/
def anchorKeys (ta : TrustAnchor) (cfg : EntityStatement) : JWKS :=
  match ta.JWKS.Set with
  | some _ => ta.JWKS
  | none => cfg.JWKS

/-- The anchor case of the verifier for a node with entity `a` and subordinate `sb`:
`ta.entity_id == a.issuer == a.subject == sb.issuer`. -/
def anchorMatches (a sb : EntityStatement) (ta : TrustAnchor) : Bool :=
  decide (ta.EntityID = a.Issuer ∧ a.Issuer = a.Subject ∧ a.Subject = sb.Issuer)

/-- The child `c` after its own verification (unchanged when that fails at runtime). -/
def pruned (verify : EntityStatement → JWKS → Bool) (anchors : List TrustAnchor) (c : trustTree) :
    trustTree :=
  match verifySignatures verify anchors c with
  | some (_, c1) => c1
  | none => c

/-- The statement `st` verifies under the key set carried by the subordinate statement of the
child `c`. -/
def verifiesUnderChild (verify : EntityStatement → JWKS → Bool) (st : EntityStatement)
    (c : trustTree) : Bool :=
  match c.Subordinate with
  | some csb => verify st csb.JWKS
  | none => false

/-- The three conditions under which a child `c` of a node with entity `ent` and subordinate `sub`
is retained: (1) `verifySignatures(c)` is true, (2) the entity verifies under the key set of the
subordinate statement of `c`, (3) the subordinate of the node, when present, verifies under it. -/
def survives (verify : EntityStatement → JWKS → Bool) (anchors : List TrustAnchor)
    (ent sub : Option EntityStatement) (c : trustTree) : Bool :=
  ((verifySignatures verify anchors c).map (fun r => r.1) == some true)
  && (match ent with
      | some e => verifiesUnderChild verify e c
      | none => false)
  && (match sub with
      | some sb => verifiesUnderChild verify sb c
      | none => true)

mutual
/-- Reference definition of the chains of a tree: with a nil list of authorities the single chain
of the subordinate (none when it is absent); otherwise the concatenation over the children, in
order, of their chains, each with the subordinate in front when there is one. -/
def chainsSpec : trustTree → List TrustChain
  | .mk _ sub none =>
    match sub with
    | none => []
    | some sb => [[some sb]]
  | .mk _ sub (some l) => chainsSpecOver sub l
/-- The concatenation over the children of `chainsSpec`. -/
def chainsSpecOver (sub : Option EntityStatement) : List trustTree → List TrustChain
  | [] => []
  | a :: rest =>
    (match sub with
      | none => chainsSpec a
      | some sb => (chainsSpec a).map (fun c => some sb :: c))
    ++ chainsSpecOver sub rest
end

/-- The chains of a tree as the leaf rule reads when it is applied to every list of authorities
without elements, nil or not. -/
def chainsLeafOnEmpty : trustTree → List TrustChain
  | .mk e sub auths =>
    if (auths.getD []).isEmpty then
      match sub with
      | none => []
      | some sb => [[some sb]]
    else chainsSpec (.mk e sub auths)

mutual
/-- No list of authorities of the tree, at any depth, holds a node without entity or without
subordinate. -/
def noEmptySlot : trustTree → Bool
  | .mk _ _ none => true
  | .mk _ _ (some l) => noEmptySlotIn l
/-- The check of `noEmptySlot` along a list of authorities. -/
def noEmptySlotIn : List trustTree → Bool
  | [] => true
  | c :: rest => c.Entity.isSome && c.Subordinate.isSome && noEmptySlot c && noEmptySlotIn rest
end

/-- Shape of a slot of a list of authorities as `resolve` leaves it, for a parent whose entity has
issuer `p`: the zero value, or a node whose configuration `a` and subordinate statement `sb` passed
the checks of the loop (`Pc`, `Ps` are what is known of a configuration and of a subordinate
statement that passed its checks), with no authorities below an anchor. -/
inductive Built (ids : List String) (Pc Ps : EntityStatement → Prop) : String → trustTree → Prop
  | slot (p : String) : Built ids Pc Ps p trustTree.zero
  | node (p : String) (a sb : EntityStatement) (auths : Option (List trustTree)) :
      a.Issuer = sb.Issuer → a.Subject = sb.Issuer → sb.Subject = p → Pc a → Ps sb →
      (SliceContains a.Issuer ids = true → auths = none) →
      (∀ l, auths = some l → ∀ c ∈ l, Built ids Pc Ps a.Issuer c) →
      Built ids Pc Ps p (.mk (some a) (some sb) auths)

/-- Shape of a node that `verifySignatures` accepted, after pruning, for a parent whose entity has
issuer `p`: an anchor node verified under the keys of the first anchor of that identifier, or an
inner node with at least one accepted child, each child carrying keys that verify the node. -/
inductive Trusted (verify : EntityStatement → JWKS → Bool) (anchors : List TrustAnchor)
    (Pc Ps : EntityStatement → Prop) : String → trustTree → Prop
  | anchor (p : String) (a sb : EntityStatement) (ta : TrustAnchor) :
      a.Issuer = sb.Issuer → a.Subject = sb.Issuer → sb.Subject = p → Pc a → Ps sb →
      anchors.find? (fun t => decide (t.EntityID = sb.Issuer)) = some ta →
      verify a (anchorKeys ta a) = true → verify sb (anchorKeys ta a) = true →
      Trusted verify anchors Pc Ps p (.mk (some a) (some sb) none)
  | inner (p : String) (a sb : EntityStatement) (l : List trustTree) :
      a.Issuer = sb.Issuer → a.Subject = sb.Issuer → sb.Subject = p → Pc a → Ps sb →
      l ≠ [] →
      (∀ c ∈ l, Trusted verify anchors Pc Ps a.Issuer c) →
      (∀ c ∈ l, ∃ csb, c.Subordinate = some csb ∧ verify a csb.JWKS = true
        ∧ verify sb csb.JWKS = true) →
      Trusted verify anchors Pc Ps p (.mk (some a) (some sb) (some l))

/-- What holds of the statements `S₁ … Sₙ` of a chain below an entity of issuer `p`: each is about
the issuer of the one before, each verifies under the keys the next one carries, and the last one
is issued by an anchor and verifies under the keys of the first anchor of that identifier. -/
def TailOK (verify : EntityStatement → JWKS → Bool) (anchors : List TrustAnchor)
    (Pc Ps : EntityStatement → Prop) : String → List EntityStatement → Prop
  | _, [] => False
  | p, [sb] =>
    sb.Subject = p ∧ Ps sb ∧
      ∃ ta cfg, anchors.find? (fun t => decide (t.EntityID = sb.Issuer)) = some ta
        ∧ cfg.Issuer = sb.Issuer ∧ cfg.Subject = sb.Issuer ∧ Pc cfg
        ∧ verify cfg (anchorKeys ta cfg) = true ∧ verify sb (anchorKeys ta cfg) = true
  | p, sb :: next :: rest =>
    sb.Subject = p ∧ Ps sb ∧ verify sb next.JWKS = true
      ∧ TailOK verify anchors Pc Ps sb.Issuer (next :: rest)

/-- `Pc` holds of every configuration, and `Ps` of every subordinate statement, that passes the
identity and time checks of the loop of `resolve`. -/
def Accepts {σ : Type} (E : Env σ) (Pc Ps : EntityStatement → Prop) : Prop :=
  (∀ aID s a s1, GetEntityConfiguration E aID s = (.ok a, s1) → a.Issuer = aID →
      a.Subject = aID → a.TimeValid (E.now s1) = true → Pc a)
  ∧ (∀ ep subID issID s sb s2, FetchEntityStatement E ep subID issID s = (.ok sb, s2) →
      sb.Issuer = issID → sb.Subject = subID → sb.TimeValid (E.now s2) = true → Ps sb)

/-! ## A small federation, used to evaluate the definitions -/

/-- Self-signed configuration of the entity `e`, naming `bad` and `i` as authorities. -/
def eCfg : EntityStatement :=
  { Issuer := "e", Subject := "e", IssuedAt := 0, ExpiresAt := 100,
    AuthorityHints := ["bad", "i"], JWKS := .mk (some ["ke"]), Metadata := none }

/-- Self-signed configuration of the intermediate `i`, naming `ta` as authority. -/
def iCfg : EntityStatement :=
  { Issuer := "i", Subject := "i", IssuedAt := 0, ExpiresAt := 100,
    AuthorityHints := ["ta"], JWKS := .mk (some ["ki"]),
    Metadata := some (.mk (some (.mk "fi")) []) }

/-- Self-signed configuration of the anchor `ta`. -/
def taCfg : EntityStatement :=
  { Issuer := "ta", Subject := "ta", IssuedAt := 0, ExpiresAt := 100,
    AuthorityHints := [], JWKS := .mk (some ["kta"]),
    Metadata := some (.mk (some (.mk "fta")) []) }

/-- Statement of `i` about `e`, carrying the keys of `e`. -/
def iAboutE : EntityStatement :=
  { Issuer := "i", Subject := "e", IssuedAt := 0, ExpiresAt := 100,
    AuthorityHints := [], JWKS := .mk (some ["ke"]), Metadata := none }

/-- Statement of `ta` about `i`, carrying the keys of `i`. -/
def taAboutI : EntityStatement :=
  { Issuer := "ta", Subject := "i", IssuedAt := 0, ExpiresAt := 100,
    AuthorityHints := [], JWKS := .mk (some ["ki"]), Metadata := none }

/-- Self-signed configuration of the entity `old`, expired since time 10. -/
def oldCfg : EntityStatement :=
  { Issuer := "old", Subject := "old", IssuedAt := 0, ExpiresAt := 10,
    AuthorityHints := ["ta"], JWKS := .mk (some ["kold"]), Metadata := none }

/-- Statement of `ta` about `old`, carrying the keys of `old`. -/
def taAboutOld : EntityStatement :=
  { Issuer := "ta", Subject := "old", IssuedAt := 0, ExpiresAt := 100,
    AuthorityHints := [], JWKS := .mk (some ["kold"]), Metadata := none }

/-- Statements served in the demonstration federation, by the number their bytes carry. -/
def demoStatement : Nat → Option EntityStatement
  | 1 => some eCfg
  | 2 => some iCfg
  | 3 => some taCfg
  | 4 => some iAboutE
  | 5 => some taAboutI
  | 6 => some oldCfg
  | 7 => some taAboutOld
  | _ => none

/-- The demonstration federation: entity `e` names the unreachable `bad` and the intermediate `i`
as authorities, `i` names the anchor `ta`; `alias` serves the configuration of `e`; the
configuration of `old` has expired. Every statement is signed with the key `k ++ issuer`, the
clock reads 50, the cache never hits. -/
def demoEnv : Env Unit where
  now := fun _ => 50
  cacheGet := fun _ _ => .ok none
  cacheSet := fun _ _ _ s => s
  obtainerGetEntityConfiguration := fun id s =>
    if id = "e" then (.ok [1], s)
    else if id = "alias" then (.ok [1], s)
    else if id = "i" then (.ok [2], s)
    else if id = "ta" then (.ok [3], s)
    else if id = "old" then (.ok [6], s)
    else (.error "unreachable", s)
  obtainerFetchEntityStatement := fun ep sub iss s =>
    if ep = "fi" ∧ sub = "e" ∧ iss = "i" then (.ok [4], s)
    else if ep = "fta" ∧ sub = "i" ∧ iss = "ta" then (.ok [5], s)
    else if ep = "fta" ∧ sub = "old" ∧ iss = "ta" then (.ok [7], s)
    else (.error "not found", s)
  ParseEntityStatement := fun b =>
    match b with
    | [n] =>
      match demoStatement n with
      | some st => .ok st
      | none => .error "malformed"
    | _ => .error "malformed"
  detach := fun _ s => s
  NilAllExceptByTag := fun md _ => md
  Verify := fun st jwks =>
    match jwks.Set with
    | none => false
    | some ks => SliceContains ("k" ++ st.Issuer) ks
  TrustChainsFilterValidMetadata := fun _ => true

/-- The anchors of the demonstration federation: `ta`, with no configured key set. -/
def demoAnchors : List TrustAnchor := [.mk "ta" (.mk none)]

/-- The node for the anchor `ta` below the intermediate `i`. -/
def anchorNode : trustTree := .mk (some taCfg) (some taAboutI) none

/-- The node for the intermediate `i` below `e`, as `resolve` builds it: its only child is the
node for `ta`. -/
def intermediateNode : trustTree := .mk (some iCfg) (some iAboutE) (some [anchorNode])

/-- `Resolve`, `VerifySignatures`, `Chains` in sequence on a given resolver: the chains and the
world state afterwards; `none` is an exhausted budget or a runtime failure. -/
def TrustResolver.run {σ : Type} (E : Env σ) (fuel : Nat) (r : TrustResolver) (s : σ) :
    Option (List TrustChain × σ) :=
  match r.Resolve E fuel s with
  | none => none
  | some (r1, s1) =>
    match r1.VerifySignatures E.Verify with
    | none => none
    | some r2 => some (r2.Chains, s1)

/-! ## `internal/utils`: the reflection helpers of `slices.go` -/

/-- A Go value of type `any` as the helpers of `slices.go` receive it, over one element type `α`:
the untyped nil, a slice of `α`, or a single `α`. How `reflect.DeepEqual` compares two elements
is an argument `deq` of the helpers that call it. -/
inductive GoAny (α : Type) where
  | nil
  | slice (xs : List α)
  | single (x : α)
  deriving DecidableEq, Repr

/-- A `reflect.Value`: the zero Value, which is what `reflect.ValueOf(nil)` returns, or a valid
value holding a slice or a single element. -/
inductive ReflectValue (α : Type) where
  | zero
  | slice (xs : List α)
  | single (x : α)
  deriving DecidableEq, Repr

/-- `reflect.ValueOf`. -/
def ValueOf {α : Type} : GoAny α → ReflectValue α
  | .nil => .zero
  | .slice xs => .slice xs
  | .single x => .single x

/-- `IsSlice`: false for an invalid value, else whether the kind is `reflect.Slice`. -/
def IsSlice {α : Type} (v : GoAny α) : Bool :=
  match ValueOf v with
  | .zero => false
  | .slice _ => true
  | .single _ => false

/-- The comparison `x == nil` of a value of type `any`. -/
def GoAny.isNil {α : Type} : GoAny α → Bool
  | .nil => true
  | _ => false

/-- `Slicify`: nil stays nil, a slice is returned as it is, any other value becomes a slice of
length one. -/
def Slicify {α : Type} (v : GoAny α) : GoAny α :=
  if v.isNil then .nil
  else if IsSlice v then v
  else
    match ValueOf v with
    | .single x => .slice [x]
    | _ => v

/-- The loop of `ReflectSliceContains` over the elements of the slice; `deq v x` is the call
`reflect.DeepEqual(v, sliceV.Index(i).Interface())`, which the library of Go decides: it need not hold
of a value and itself. -/
def reflectContainsLoop {α : Type} (deq : α → α → Bool) (v : α) : List α → Bool
  | [] => false
  | x :: rest => if deq v x then true else reflectContainsLoop deq v rest

/-- `ReflectSliceContains`: false when the second argument is no slice. -/
def ReflectSliceContains {α : Type} (deq : α → α → Bool) (v : α) (slice : GoAny α) : Bool :=
  if !IsSlice slice then false
  else
    match ValueOf slice with
    | .slice xs => reflectContainsLoop deq v xs
    | _ => false

/-- The loop of `ReflectUnion` over the elements of `b`: `out` grows by every element it does not
hold yet. -/
def unionLoop {α : Type} (deq : α → α → Bool) : List α → List α → List α
  | [], out => out
  | v :: rest, out =>
    if !ReflectSliceContains deq v (.slice out) then unionLoop deq rest (out ++ [v])
    else unionLoop deq rest out

/-- `ReflectUnion`. The result is `none` for a runtime failure: `bV.Len()` is called on the zero
Value when `b` is nil, `out.Interface()` when `a` is nil. -/
def ReflectUnion {α : Type} (deq : α → α → Bool) (a b : GoAny α) : Option (GoAny α) :=
  match ValueOf (Slicify b) with
  | .slice bs =>
    match ValueOf (Slicify a) with
    | .slice as => some (.slice (unionLoop deq bs as))
    | _ => none
  | _ => none

/-- The loop of `ReflectIntersect` over the elements of `a`: `out` grows by every element that
`bs` holds. -/
def intersectLoop {α : Type} (deq : α → α → Bool) (bs : GoAny α) : List α → List α → List α
  | [], out => out
  | v :: rest, out =>
    if ReflectSliceContains deq v bs then intersectLoop deq bs rest (out ++ [v])
    else intersectLoop deq bs rest out

/-- `ReflectIntersect`. The result is `none` for a runtime failure: `reflect.New` is called on the
nil type when `a` is nil. -/
def ReflectIntersect {α : Type} (deq : α → α → Bool) (a b : GoAny α) : Option (GoAny α) :=
  match ValueOf (Slicify a) with
  | .slice as => some (.slice (intersectLoop deq (Slicify b) as []))
  | _ => none

/-- The loop of `ReflectIsSubsetOf` over the elements of `is`. -/
def subsetLoop {α : Type} (deq : α → α → Bool) (ofs : GoAny α) : List α → Bool
  | [] => true
  | v :: rest => if !ReflectSliceContains deq v ofs then false else subsetLoop deq ofs rest

/-- `ReflectIsSubsetOf`. The result is `none` for a runtime failure: `isV.Len()` is called on the
zero Value when the first argument is nil. -/
def ReflectIsSubsetOf {α : Type} (deq : α → α → Bool) (is ofs : GoAny α) : Option Bool :=
  match ValueOf (Slicify is) with
  | .slice xs => some (subsetLoop deq (Slicify ofs) xs)
  | _ => none

/-- `ReflectIsSupersetOf`. -/
def ReflectIsSupersetOf {α : Type} (deq : α → α → Bool) (is ofs : GoAny α) : Option Bool :=
  ReflectIsSubsetOf deq ofs is

/-- The loop of `SliceEqual` over the elements of `a`. -/
def sliceEqualLoop {α : Type} (deq : α → α → Bool) (bs : GoAny α) : List α → Bool
  | [] => true
  | v :: rest => if !ReflectSliceContains deq v bs then false else sliceEqualLoop deq bs rest

/-- `SliceEqual`: with a nil argument the result is `a == b`, which holds when both are nil;
otherwise the lengths are compared and every element of `a` is looked up in `b`. Both values are
valid after the guard, so no call can fail. -/
def SliceEqual {α : Type} (deq : α → α → Bool) (a b : GoAny α) : Bool :=
  if a.isNil || b.isNil then a.isNil && b.isNil
  else
    match ValueOf (Slicify a), ValueOf (Slicify b) with
    | .slice as, .slice bs =>
      if as.length ≠ bs.length then false else sliceEqualLoop deq (Slicify b) as
    | _, _ => false

/-- The result of `reflect.DeepEqual` on two values of one element type. Element values are taken
up to deep equality, so that only a value and itself can be deeply equal; `selfEqual x` tells
whether Go holds `x` deeply equal to itself, which it denies of a NaN float and of a non-nil func
value. -/
def DeepEqual {α : Type} [DecidableEq α] (selfEqual : α → Bool) (x y : α) : Bool :=
  selfEqual x && decide (x = y)

/-- The element types all of whose values Go holds deeply equal to themselves, such as the
integers and the strings. -/
def allSelfEqual {α : Type} : α → Bool :=
  fun _ => true

/-- A value of type `float64` as far as equality sees it: a number or the NaN. -/
inductive Float64 where
  | num (x : ℚ)
  | NaN
  deriving DecidableEq

/-- Go holds every `float64` equal to itself but the NaN. -/
def Float64.selfEqual : Float64 → Bool
  | .num _ => true
  | .NaN => false

/-- Reference: the list without the later occurrences of an element that occurred before. -/
def firstOccurrences {α : Type} [DecidableEq α] : List α → List α
  | [] => []
  | v :: rest => v :: (firstOccurrences rest).filter (fun x => x ≠ v)

/-- Reference for the union as the code computes it: `a`, then in the order of `b` the first
occurrence of each element of `b` that is not an element of `a`. -/
def unionFirst {α : Type} [DecidableEq α] (a b : List α) : List α :=
  a ++ firstOccurrences (b.filter (fun x => x ∉ a))

/-- Reference for the union with every occurrence kept: `a`, then in the order of `b` each
element of `b` that is not an element of `a`. -/
def unionAll {α : Type} [DecidableEq α] (a b : List α) : List α :=
  a ++ b.filter (fun x => x ∉ a)

/-! ## The cache as an explicit map -/

/-- The world of a resolver whose cache is an explicit map: the entries of the cache under their
key `(subject, issuer)`, the newest first, and the state `ω` of everything else. -/
structure MapWorld (ω : Type) where
  cache : List ((String × String) × EntityStatement)
  outer : ω

/-- The entry the cache holds under a key, if any. -/
def MapWorld.lookup {ω : Type} (w : MapWorld ω) (key : String × String) :
    Option EntityStatement :=
  (w.cache.find? (fun e => decide (e.1 = key))).map (fun e => e.2)

/-- Modelled from the spec: the package `cache` (outside the files at hand) as an explicit map
keyed by `(subject, issuer)`: `cache.Get` returns the entry under the key, `cache.Set` puts the
statement under the key; expiry is left out. The other collaborators are those of `E`, acting on
the state `ω`, and `sched` is the scheduler of detached tasks. -/
def withMapCache {ω : Type} (E : Env ω)
    (sched : (MapWorld ω → MapWorld ω) → MapWorld ω → MapWorld ω) : Env (MapWorld ω) where
  now := fun w => E.now w.outer
  cacheGet := fun key w => .ok (w.lookup key)
  cacheSet := fun key stmt _ w => { w with cache := (key, stmt) :: w.cache }
  obtainerGetEntityConfiguration := fun id w =>
    ((E.obtainerGetEntityConfiguration id w.outer).1,
      { w with outer := (E.obtainerGetEntityConfiguration id w.outer).2 })
  obtainerFetchEntityStatement := fun ep sub iss w =>
    ((E.obtainerFetchEntityStatement ep sub iss w.outer).1,
      { w with outer := (E.obtainerFetchEntityStatement ep sub iss w.outer).2 })
  ParseEntityStatement := E.ParseEntityStatement
  detach := sched
  NilAllExceptByTag := E.NilAllExceptByTag
  Verify := E.Verify
  TrustChainsFilterValidMetadata := E.TrustChainsFilterValidMetadata

/-! ## The hint graph, descent paths and repeated runs -/

/-- An edge of the authority-hint graph the obtainer serves: a configuration obtained for `id`, in
some state of the world, lists `h` among its authority hints. -/
def hintEdge {σ : Type} (E : Env σ) (id h : String) : Prop :=
  ∃ s a s1, GetEntityConfiguration E id s = (.ok a, s1) ∧ h ∈ a.AuthorityHints

mutual
/-- The identifiers (entity issuers) along each path that starts at the node and descends
through its authorities; a node without entity starts no path. -/
def nodePaths : trustTree → List (List String)
  | .mk ent _ none =>
    match ent with
    | none => []
    | some a => [[a.Issuer]]
  | .mk ent _ (some l) =>
    match ent with
    | none => []
    | some a => [a.Issuer] :: (nodePathsIn l).map (fun p => a.Issuer :: p)
/-- The paths that start at one of the nodes of a list of authorities. -/
def nodePathsIn : List trustTree → List (List String)
  | [] => []
  | c :: rest => nodePaths c ++ nodePathsIn rest
end

/-- Every node is the child for a hint of the entity `pe` of its parent, holds a configuration
that was obtained for its own issuer, and the same holds below it. -/
inductive Descends {σ : Type} (E : Env σ) : EntityStatement → trustTree → Prop
  | slot (pe : EntityStatement) : Descends E pe trustTree.zero
  | node (pe a : EntityStatement) (sub : Option EntityStatement)
      (auths : Option (List trustTree)) :
      a.Issuer ∈ pe.AuthorityHints →
      (∃ s s1, GetEntityConfiguration E a.Issuer s = (.ok a, s1)) →
      (∀ l, auths = some l → ∀ c ∈ l, Descends E a c) →
      Descends E pe (.mk (some a) sub auths)

/-- The composite operations answer the same request in the same way in every state of the world,
and the clock does not move. -/
def Stable {σ : Type} (E : Env σ) : Prop :=
  (∀ id s s0, (GetEntityConfiguration E id s).1 = (GetEntityConfiguration E id s0).1)
  ∧ (∀ ep sub iss s s0,
      (FetchEntityStatement E ep sub iss s).1 = (FetchEntityStatement E ep sub iss s0).1)
  ∧ (∀ s s0, E.now s = E.now s0)

/-- `Resolve`, `VerifySignatures`, `Chains` in sequence, keeping the resolver for a further run. -/
def TrustResolver.runKeep {σ : Type} (E : Env σ) (fuel : Nat) (r : TrustResolver) (s : σ) :
    Option (List TrustChain × TrustResolver × σ) :=
  match r.Resolve E fuel s with
  | none => none
  | some (r1, s1) =>
    match r1.VerifySignatures E.Verify with
    | none => none
    | some r2 => some (r2.Chains, r2, s1)

/-- Configuration of `x` that names `x` itself as its authority. -/
def xSelfCfg : EntityStatement :=
  { Issuer := "x", Subject := "x", IssuedAt := 0, ExpiresAt := 100,
    AuthorityHints := ["x"], JWKS := .mk (some ["kx"]),
    Metadata := some (.mk (some (.mk "fx")) []) }

/-- Configuration of `x` without authority hints. -/
def xLeafCfg : EntityStatement :=
  { Issuer := "x", Subject := "x", IssuedAt := 0, ExpiresAt := 100,
    AuthorityHints := [], JWKS := .mk (some ["kx"]),
    Metadata := some (.mk (some (.mk "fx")) []) }

/-- Statement of `x` about itself, served by its fetch endpoint. -/
def xAboutX : EntityStatement :=
  { Issuer := "x", Subject := "x", IssuedAt := 0, ExpiresAt := 100,
    AuthorityHints := [], JWKS := .mk (some ["kx"]), Metadata := none }

/-- The collaborators of a federation whose only entity is `x`; `selfHint n` tells whether the
configuration served at the `n`-th configuration request names `x` as its own authority. The
state counts the configuration requests; the cache never hits; the clock reads 50. -/
def loopEnvOf (selfHint : Nat → Bool) : Env Nat where
  now := fun _ => 50
  cacheGet := fun _ _ => .ok none
  cacheSet := fun _ _ _ s => s
  obtainerGetEntityConfiguration := fun id n =>
    if id = "x" then (.ok [if selfHint n then 1 else 2], n + 1)
    else (.error "unreachable", n + 1)
  obtainerFetchEntityStatement := fun ep sub iss n =>
    if ep = "fx" ∧ sub = "x" ∧ iss = "x" then (.ok [3], n)
    else (.error "not found", n)
  ParseEntityStatement := fun b =>
    match b with
    | [1] => .ok xSelfCfg
    | [2] => .ok xLeafCfg
    | [3] => .ok xAboutX
    | _ => .error "malformed"
  detach := fun _ s => s
  NilAllExceptByTag := fun md _ => md
  Verify := fun _ _ => true
  TrustChainsFilterValidMetadata := fun _ => true

/-- The entity `x` names itself as authority in the configuration served first, and no authority
in the configurations served later. -/
def loopEnv : Env Nat := loopEnvOf (fun n => decide (n = 0))

/-- The entity `x` names itself as authority in every configuration served. -/
def cycleEnv : Env Nat := loopEnvOf (fun _ => true)

/-- Length of the longest hint path from an identifier in the demonstration federation. -/
def demoRank (id : String) : Nat :=
  if id = "e" ∨ id = "alias" then 2 else if id = "i" ∨ id = "old" then 1 else 0

/-- The loop body of `resolve` up to the recursive call: the world after a `continue` (left), or
the configuration and the subordinate statement of the child to build and the world at that
point (right). -/
def hintChild {σ : Type} (E : Env σ) (ent : EntityStatement) (aID : String) (s : σ) :
    σ ⊕ (EntityStatement × EntityStatement × σ) :=
  match GetEntityConfiguration E aID s with
  | (.error _, s1) => .inl s1
  | (.ok aStmt, s1) =>
    if !Equal aStmt.Issuer [aStmt.Subject, aID] || !aStmt.TimeValid (E.now s1) then .inl s1
    else
      match aStmt.Metadata with
      | none => .inl s1
      | some md =>
        match md.FederationEntity with
        | none => .inl s1
        | some fe =>
          if fe.FederationFetchEndpoint = "" then .inl s1
          else
            match FetchEntityStatement E fe.FederationFetchEndpoint ent.Issuer aID s1 with
            | (.error _, s2) => .inl s2
            | (.ok subordinateStmt, s2) =>
              if subordinateStmt.Issuer ≠ aID || subordinateStmt.Subject ≠ ent.Issuer
                  || !subordinateStmt.TimeValid (E.now s2) then .inl s2
              else .inr (aStmt, subordinateStmt, s2)

/-! ## The key set of the anchor case as the specification words it -/

/-- Reference for the key set of the anchor case in the words of the specification: the key set of
the anchor if it is non-empty, else the one of the configuration `cfg`. -/
def anchorKeysNonEmpty (ta : TrustAnchor) (cfg : EntityStatement) : JWKS :=
  match ta.JWKS.Set with
  | some (_ :: _) => ta.JWKS
  | _ => cfg.JWKS

/-- The anchor `ta` configured with a key set that holds no key. -/
def emptyKeyAnchor : TrustAnchor := .mk "ta" (.mk (some []))

/-! ## Induction over trees -/

/-- Induction over a tree with the hypothesis available for every child. -/
theorem trustTree.induct {motive : trustTree → Prop}
    (h : ∀ ent sub auths, (∀ l, auths = some l → ∀ c ∈ l, motive c) → motive (.mk ent sub auths))
    (t : trustTree) : motive t := by
  refine trustTree.rec (motive_1 := motive)
    (motive_2 := fun o => ∀ l, o = some l → ∀ c ∈ l, motive c)
    (motive_3 := fun l => ∀ c ∈ l, motive c) ?_ ?_ ?_ ?_ ?_ t
  · intro ent sub auths ih
    exact h ent sub auths ih
  · intro l hl
    cases hl
  · intro val ih l hl
    cases hl
    exact ih
  · intro c hc
    cases hc
  · intro head tail ih1 ih2 c hc
    rcases List.mem_cons.mp hc with rfl | hc
    · exact ih1
    · exact ih2 c hc

/-! ## Chain extraction is the reference definition -/

/-- The inner loop of `chains` appends the chains of a child with the subordinate in front. -/
theorem foldl_append_singleton (sub : Option EntityStatement) (cs acc : List TrustChain) :
    cs.foldl (fun acc1 aChain => acc1 ++ [[sub] ++ aChain]) acc
      = acc ++ cs.map (fun c => sub :: c) := by
  induction cs generalizing acc with
  | nil => simp
  | cons c rest ih =>
    rw [List.foldl_cons, ih]
    simp

/-- The loop of `chains` appends, child after child, the chains of the child, with the subordinate
in front when there is one. -/
theorem chainsLoop_flatMap (sub : Option EntityStatement) (l : List trustTree)
    (acc : List TrustChain) :
    chainsLoop sub l acc
      = acc ++ l.flatMap (fun a =>
          if sub = none then chains a else (chains a).map (fun c => sub :: c)) := by
  induction l generalizing acc with
  | nil => simp [chainsLoop]
  | cons a rest ih =>
    rw [chainsLoop]
    split
    · rename_i h
      rw [ih]
      simp [h]
    · rename_i h
      rw [foldl_append_singleton, ih]
      simp [h]

/-- The concatenation of the reference definition as a `flatMap`. -/
theorem chainsSpecOver_eq_flatMap (sub : Option EntityStatement) (l : List trustTree) :
    chainsSpecOver sub l
      = l.flatMap (fun a =>
          match sub with
          | none => chainsSpec a
          | some sb => (chainsSpec a).map (fun c => some sb :: c)) := by
  induction l with
  | nil => simp [chainsSpecOver]
  | cons a rest ih => simp [chainsSpecOver, ih]

/-! ## The verifier: anchor case and pruning loop -/

/-- The variadic comparison of the anchor case is the three equalities of `anchorMatches`. -/
theorem Equal_anchor (a sb : EntityStatement) (ta : TrustAnchor) :
    Equal ta.EntityID [a.Issuer, a.Subject, sb.Issuer] = anchorMatches a sb ta := by
  unfold anchorMatches
  by_cases h1 : a.Issuer = ta.EntityID
  · by_cases h2 : a.Subject = ta.EntityID
    · by_cases h3 : sb.Issuer = ta.EntityID
      · simp [Equal, h1, h2, h3]
      · have : ¬ ta.EntityID = sb.Issuer := fun h => h3 h.symm
        simp [Equal, h1, h2, h3, this]
    · have : ¬ ta.EntityID = a.Subject := fun h => h2 h.symm
      simp [Equal, h1, h2, this]
  · have : ¬ ta.EntityID = a.Issuer := fun h => h1 h.symm
    simp [Equal, h1, this]

/-- The key set chosen by the anchor case is `anchorKeys`. -/
theorem anchorKeys_eq (ta : TrustAnchor) (cfg : EntityStatement) :
    (if ta.JWKS.Set = none then cfg.JWKS else ta.JWKS) = anchorKeys ta cfg := by
  unfold anchorKeys
  cases h : ta.JWKS.Set <;> simp

/-- The loop over the anchors returns what the first matching anchor decides. -/
theorem verifyAnchors_eq (verify : EntityStatement → JWKS → Bool) (a sb : EntityStatement)
    (anchors : List TrustAnchor) :
    verifyAnchors verify (some a) sb anchors
      = some ((anchors.find? (anchorMatches a sb)).map
          (fun ta => verify a (anchorKeys ta a) && verify sb (anchorKeys ta a))) := by
  induction anchors with
  | nil => simp [verifyAnchors]
  | cons ta rest ih =>
    rw [verifyAnchors, Equal_anchor, List.find?_cons]
    cases h : anchorMatches a sb ta
    · simp [ih]
    · simp [anchorKeys_eq]

/-- Writing cell `i` and keeping `i + 1` cells appends the written value to the first `i` cells. -/
theorem take_succ_set {α : Type} (l : List α) (i : Nat) (x : α) (h : i < l.length) :
    (l.set i x).take (i + 1) = l.take i ++ [x] := by
  induction l generalizing i with
  | nil => simp at h
  | cons y ys ih =>
    cases i with
    | zero => simp
    | succ j =>
      simp only [List.length_cons] at h
      simp [ih j (by omega)]

/-- One unfolding of the verifier on a node. -/
theorem verifySignatures_mk (verify : EntityStatement → JWKS → Bool) (anchors : List TrustAnchor)
    (ent sub : Option EntityStatement) (auths : Option (List trustTree)) :
    verifySignatures verify anchors (.mk ent sub auths)
      = match anchorCase verify anchors ent sub with
        | none => none
        | some (some b) => some (b, .mk ent sub auths)
        | some none =>
          match auths with
          | none => some (false, .mk ent sub none)
          | some l =>
            match verifyLoop verify anchors ent sub l l 0 with
            | none => none
            | some (arr, iValid) =>
              some (decide ((arr.take iValid).length > 0), .mk ent sub (some (arr.take iValid))) := by
  cases auths <;> rfl

/-- The verifier changes neither the entity nor the subordinate of the node it is called on. -/
theorem verifySignatures_fields {verify : EntityStatement → JWKS → Bool}
    {anchors : List TrustAnchor} {t t1 : trustTree} {b : Bool}
    (h : verifySignatures verify anchors t = some (b, t1)) :
    t1.Entity = t.Entity ∧ t1.Subordinate = t.Subordinate := by
  obtain ⟨ent, sub, auths⟩ := t
  rw [verifySignatures_mk] at h
  split at h
  · cases h
  · cases h
    exact ⟨rfl, rfl⟩
  · split at h
    · cases h
      exact ⟨rfl, rfl⟩
    · split at h
      · cases h
      · cases h
        exact ⟨rfl, rfl⟩

/-- The pruning loop, when it completes, leaves in the first `iValid` cells of the backing array
what was there before followed by the retained children, each in its pruned state. -/
theorem verifyLoop_spec (verify : EntityStatement → JWKS → Bool) (anchors : List TrustAnchor)
    (ent sub : Option EntityStatement) (rest : List trustTree) :
    ∀ (arr : List trustTree) (iValid : Nat) (arr1 : List trustTree) (iValid1 : Nat),
      verifyLoop verify anchors ent sub rest arr iValid = some (arr1, iValid1) →
      iValid + rest.length ≤ arr.length →
      arr1.take iValid1
        = arr.take iValid
          ++ (rest.filter (survives verify anchors ent sub)).map (pruned verify anchors) := by
  induction rest with
  | nil =>
    intro arr iValid arr1 iValid1 h _
    simp [verifyLoop] at h
    obtain ⟨rfl, rfl⟩ := h
    simp
  | cons tt rest ih =>
    intro arr iValid arr1 iValid1 h hlen
    rw [verifyLoop] at h
    simp only [List.length_cons] at hlen
    cases hv : verifySignatures verify anchors tt with
    | none => simp [hv] at h
    | some r =>
      obtain ⟨b, tt1⟩ := r
      have hf := (verifySignatures_fields hv).2
      cases b with
      | false =>
        simp only [hv] at h
        have hsv : survives verify anchors ent sub tt = false := by simp [survives, hv]
        rw [ih arr iValid arr1 iValid1 h (by omega), List.filter_cons, hsv]
        simp
      | true =>
        simp only [hv] at h
        cases hs : tt.Subordinate with
        | none => simp [hf, hs] at h
        | some tsub =>
          cases ent with
          | none => simp [hf, hs] at h
          | some e =>
            simp only [hf, hs] at h
            have hkeep : ∀ arr2 iValid2,
                verifyLoop verify anchors (some e) sub rest arr iValid = some (arr2, iValid2) →
                survives verify anchors (some e) sub tt = false →
                arr2.take iValid2 = arr.take iValid
                  ++ ((tt :: rest).filter (survives verify anchors (some e) sub)).map
                      (pruned verify anchors) := by
              intro arr2 iValid2 h3 hsv
              rw [ih arr iValid arr2 iValid2 h3 (by omega), List.filter_cons, hsv]
              simp
            cases h1 : verify e tsub.JWKS with
            | false =>
              simp [h1] at h
              exact hkeep _ _ h (by simp [survives, verifiesUnderChild, hv, hs, h1])
            | true =>
              have hput : verifyLoop verify anchors (some e) sub rest (arr.set iValid tt1)
                    (iValid + 1) = some (arr1, iValid1) →
                  survives verify anchors (some e) sub tt = true →
                  arr1.take iValid1 = arr.take iValid
                    ++ ((tt :: rest).filter (survives verify anchors (some e) sub)).map
                        (pruned verify anchors) := by
                intro h3 hsv
                have hp : pruned verify anchors tt = tt1 := by simp [pruned, hv]
                have hlt : iValid < arr.length := by omega
                rw [ih (arr.set iValid tt1) (iValid + 1) arr1 iValid1 h3
                  (by simp; omega), List.filter_cons, hsv]
                rw [take_succ_set arr iValid tt1 hlt]
                simp [hp]
              cases sub with
              | none =>
                simp [h1] at h
                exact hput h (by simp [survives, verifiesUnderChild, hv, hs, h1])
              | some sb =>
                cases h2 : verify sb tsub.JWKS with
                | false =>
                  simp [h1, h2] at h
                  exact hkeep _ _ h (by simp [survives, verifiesUnderChild, hv, hs, h1, h2])
                | true =>
                  simp [h1, h2] at h
                  exact hput h (by simp [survives, verifiesUnderChild, hv, hs, h1, h2])

/-! ## The verifier on arbitrary trees -/

/-- C7, as amended: for a tree with entity `a` and subordinate `sb` present, when `ta` is the first
anchor with `ta.entity_id == a.issuer == a.subject == sb.issuer`, the verifier returns
`a.verify(jwks) ∧ sb.verify(jwks)` with `jwks` the key set of `ta` if it has one (`jwks.Set` is not
nil, a set that holds no key included) and the key set of `a` otherwise, and it leaves the tree as
it is. -/
theorem verifySignatures_anchor_case (verify : EntityStatement → JWKS → Bool)
    (anchors : List TrustAnchor) (a sb : EntityStatement) (auths : Option (List trustTree))
    (ta : TrustAnchor) (h : anchors.find? (anchorMatches a sb) = some ta) :
    verifySignatures verify anchors (.mk (some a) (some sb) auths)
      = some (verify a (anchorKeys ta a) && verify sb (anchorKeys ta a),
          .mk (some a) (some sb) auths) := by
  rw [verifySignatures_mk, anchorCase, verifyAnchors_eq, h]
  rfl

/-- C7, as amended, at the anchor node of the demonstration federation: the anchor `ta` has no configured key
set, so both statements are checked against the keys of its own configuration. -/
theorem verifySignatures_anchor_case_witness :
    demoAnchors.find? (anchorMatches taCfg taAboutI) = some (TrustAnchor.mk "ta" (JWKS.mk none))
    ∧ verifySignatures demoEnv.Verify demoAnchors (.mk (some taCfg) (some taAboutI) none)
      = some (demoEnv.Verify taCfg (anchorKeys (TrustAnchor.mk "ta" (JWKS.mk none)) taCfg)
            && demoEnv.Verify taAboutI (anchorKeys (TrustAnchor.mk "ta" (JWKS.mk none)) taCfg),
          .mk (some taCfg) (some taAboutI) none) :=
  ⟨by decide,
    verifySignatures_anchor_case demoEnv.Verify demoAnchors taCfg taAboutI none
      (TrustAnchor.mk "ta" (JWKS.mk none)) (by decide)⟩

/-- The recursive case of the verifier: when no anchor decided and the call completes, the
authorities afterwards are the children that meet the conditions of `survives`, in order and each
in its pruned state, and the result tells whether there is one. -/
theorem verifySignatures_recursive_aux (verify : EntityStatement → JWKS → Bool)
    (anchors : List TrustAnchor) (ent sub : Option EntityStatement)
    (auths : Option (List trustTree)) (b : Bool) (t1 : trustTree)
    (hcase : anchorCase verify anchors ent sub = some none)
    (h : verifySignatures verify anchors (.mk ent sub auths) = some (b, t1)) :
    t1 = .mk ent sub
        (auths.map (fun l =>
          (l.filter (survives verify anchors ent sub)).map (pruned verify anchors)))
    ∧ (b = true ↔ (auths.getD []).filter (survives verify anchors ent sub) ≠ []) := by
  rw [verifySignatures_mk, hcase] at h
  cases auths with
  | none =>
    simp at h
    obtain ⟨rfl, rfl⟩ := h
    simp
  | some l =>
    simp only at h
    cases hl : verifyLoop verify anchors ent sub l l 0 with
    | none => simp [hl] at h
    | some r =>
      obtain ⟨arr, iValid⟩ := r
      have hspec := verifyLoop_spec verify anchors ent sub l l 0 arr iValid hl (by simp)
      simp only [hl, hspec, List.take_zero, List.nil_append] at h
      simp only [Option.some.injEq, Prod.mk.injEq] at h
      obtain ⟨rfl, rfl⟩ := h
      refine ⟨rfl, ?_⟩
      simp [List.length_pos]

/-- C6: for a tree that does not match the anchor case, when the verifier completes, the tree
afterwards has the same entity and subordinate, its authorities are the children that meet the
three conditions of `survives`, in their original order and each in its own pruned state (a nil
list stays nil), and the result is true exactly when that list is not empty. -/
theorem verifySignatures_recursive_case (verify : EntityStatement → JWKS → Bool)
    (anchors : List TrustAnchor) (ent sub : Option EntityStatement)
    (auths : Option (List trustTree)) (b : Bool) (t1 : trustTree)
    (hna : ∀ a sb, ent = some a → sub = some sb → ∀ ta ∈ anchors, anchorMatches a sb ta = false)
    (h : verifySignatures verify anchors (.mk ent sub auths) = some (b, t1)) :
    t1 = .mk ent sub
        (auths.map (fun l =>
          (l.filter (survives verify anchors ent sub)).map (pruned verify anchors)))
    ∧ (b = true ↔ (auths.getD []).filter (survives verify anchors ent sub) ≠ []) := by
  have hcase : anchorCase verify anchors ent sub = some none := by
    cases sub with
    | none => rfl
    | some sb =>
      cases ent with
      | none =>
        cases anchors with
        | nil => rfl
        | cons ta rest =>
          rw [verifySignatures_mk] at h
          simp [anchorCase, verifyAnchors] at h
      | some a =>
        have hf : anchors.find? (anchorMatches a sb) = none :=
          List.find?_eq_none.mpr (fun ta hta => by simp [hna a sb rfl rfl ta hta])
        rw [anchorCase, verifyAnchors_eq, hf]
        rfl
  exact verifySignatures_recursive_aux verify anchors ent sub auths b t1 hcase h

/-- C6 on the node of the intermediate `i` of the demonstration federation: `i` is no anchor, its
child for the anchor `ta` meets the three conditions, so the child is retained and the result is
true. -/
theorem verifySignatures_recursive_case_witness :
    (∀ a sb, some iCfg = some a → some iAboutE = some sb →
        ∀ ta ∈ demoAnchors, anchorMatches a sb ta = false)
    ∧ verifySignatures demoEnv.Verify demoAnchors intermediateNode = some (true, intermediateNode)
    ∧ intermediateNode
        = .mk (some iCfg) (some iAboutE)
            ((some [anchorNode]).map (fun l =>
              (l.filter (survives demoEnv.Verify demoAnchors (some iCfg) (some iAboutE))).map
                (pruned demoEnv.Verify demoAnchors)))
    ∧ (true = true ↔
        ((some [anchorNode]).getD []).filter
          (survives demoEnv.Verify demoAnchors (some iCfg) (some iAboutE)) ≠ []) :=
  have hna : ∀ a sb, some iCfg = some a → some iAboutE = some sb →
      ∀ ta ∈ demoAnchors, anchorMatches a sb ta = false := by
    intro a sb ha hsb ta hta
    cases ha
    cases hsb
    simp only [demoAnchors, List.mem_singleton] at hta
    subst hta
    decide
  ⟨hna, rfl,
    verifySignatures_recursive_case demoEnv.Verify demoAnchors (some iCfg) (some iAboutE)
      (some [anchorNode]) true intermediateNode hna rfl⟩

/-- C8, as amended: on every tree `chains` is the reference definition `chainsSpec`: with a nil
list of authorities the single chain of the subordinate, or no chain when it is absent; otherwise,
also for a list emptied by pruning, the concatenation over the children in order of their chains,
each with the subordinate in front when it is present. -/
theorem chains_eq_chainsSpec (t : trustTree) : chains t = chainsSpec t := by
  induction t using trustTree.induct with
  | h ent sub auths ih =>
    cases auths with
    | none => cases sub <;> simp [chains, chainsSpec]
    | some l =>
      rw [chains, chainsSpec, chainsLoop_flatMap, chainsSpecOver_eq_flatMap, List.nil_append]
      have hl : ∀ c ∈ l, chains c = chainsSpec c := ih l rfl
      clear ih
      induction l with
      | nil => rfl
      | cons c rest ihl =>
        rw [List.flatMap_cons, List.flatMap_cons, ihl (fun d hd => hl d (List.mem_cons_of_mem _ hd)),
          hl c (List.mem_cons_self _ _)]
        cases sub <;> simp

/-- C8, as stated, fails on a node whose list of authorities was emptied by pruning: the verifier
leaves the node of the intermediate `i`, when no anchor is configured, with a list that is empty
but not nil, for which `chains`
returns no chain although the subordinate is present. -/
theorem chains_leaf_rule_counterexample :
    verifySignatures demoEnv.Verify [] intermediateNode
        = some (false, .mk (some iCfg) (some iAboutE) (some []))
    ∧ chains (.mk (some iCfg) (some iAboutE) (some [])) = []
    ∧ chainsLeafOnEmpty (.mk (some iCfg) (some iAboutE) (some [])) = [[some iAboutE]]
    ∧ chains (.mk (some iCfg) (some iAboutE) (some []))
        ≠ chainsLeafOnEmpty (.mk (some iCfg) (some iAboutE) (some [])) :=
  ⟨rfl, rfl, rfl, by decide⟩

/-! ## What `resolve` builds -/

/-- The variadic comparison of the loop of `resolve` is the two equalities with the hint. -/
theorem Equal_hint (a : EntityStatement) (aID : String) :
    Equal a.Issuer [a.Subject, aID] = true ↔ a.Issuer = aID ∧ a.Subject = aID := by
  constructor
  · intro h
    by_cases h1 : a.Subject = a.Issuer
    · by_cases h2 : aID = a.Issuer
      · exact ⟨h2.symm, h1.trans h2.symm⟩
      · simp [Equal, h1, h2] at h
    · simp [Equal, h1] at h
  · rintro ⟨h1, h2⟩
    simp [Equal, h1, h2]

/-- A hint for which the loop of `resolve` builds a child passed every check of the loop body. -/
theorem resolveHint_some {σ : Type} (E : Env σ)
    (recurse : trustTree → σ → Option (trustTree × σ)) (ent : EntityStatement) (aID : String)
    (s s3 : σ) (tt : trustTree) (h : resolveHint E recurse ent aID s = some (some tt, s3)) :
    ∃ a sb s1 s2 md fe,
      GetEntityConfiguration E aID s = (.ok a, s1)
      ∧ a.Issuer = aID ∧ a.Subject = aID ∧ a.TimeValid (E.now s1) = true
      ∧ a.Metadata = some md ∧ md.FederationEntity = some fe ∧ fe.FederationFetchEndpoint ≠ ""
      ∧ FetchEntityStatement E fe.FederationFetchEndpoint ent.Issuer aID s1 = (.ok sb, s2)
      ∧ sb.Issuer = aID ∧ sb.Subject = ent.Issuer ∧ sb.TimeValid (E.now s2) = true
      ∧ recurse (.mk (some a) (some sb) none) s2 = some (tt, s3) := by
  unfold resolveHint at h
  split at h
  · simp at h
  · rename_i a s1 hget
    split at h
    · simp at h
    · rename_i hchk
      split at h
      · simp at h
      · rename_i md hmd
        split at h
        · simp at h
        · rename_i fe hfe
          split at h
          · simp at h
          · rename_i hep
            split at h
            · simp at h
            · rename_i sb s2 hfetch
              split at h
              · simp at h
              · rename_i hchk2
                split at h
                · simp at h
                · rename_i tt1 s4 hrec
                  simp at h
                  obtain ⟨rfl, rfl⟩ := h
                  simp only [Bool.or_eq_true, Bool.not_eq_true', not_or, Bool.not_eq_false]
                    at hchk
                  have hid := (Equal_hint a aID).mp (by simpa using hchk.1)
                  simp only [Bool.or_eq_true, Bool.not_eq_true', not_or, Bool.not_eq_false,
                    decide_eq_true_eq, ne_eq, Decidable.not_not, decide_not] at hchk2
                  refine ⟨a, sb, s1, s2, md, fe, hget, hid.1, hid.2, by simpa using hchk.2, hmd,
                    hfe, hep, hfetch, ?_, ?_, ?_, hrec⟩
                  · simpa using hchk2.1.1
                  · simpa using hchk2.1.2
                  · simpa using hchk2.2

/-- The loop of `resolve` keeps every property of the slots that the zero value and every child
it builds have. -/
theorem resolveLoop_inv {σ : Type} (E : Env σ)
    (recurse : trustTree → σ → Option (trustTree × σ)) (ent : EntityStatement)
    (Q : trustTree → Prop)
    (hQ : ∀ aID s s3 tt, resolveHint E recurse ent aID s = some (some tt, s3) → Q tt)
    (hints : List String) :
    ∀ (i : Nat) (auths auths1 : Option (List trustTree)) (s s1 : σ),
      resolveLoop E recurse ent hints i auths s = some (auths1, s1) →
      (∀ l, auths = some l → ∀ c ∈ l, Q c) →
      (∀ l, auths1 = some l → ∀ c ∈ l, Q c) ∧ (auths1 = none ↔ auths = none) := by
  induction hints with
  | nil =>
    intro i auths auths1 s s1 h hinv
    simp [resolveLoop] at h
    obtain ⟨rfl, rfl⟩ := h
    exact ⟨hinv, Iff.rfl⟩
  | cons aID rest ih =>
    intro i auths auths1 s s1 h hinv
    rw [resolveLoop] at h
    split at h
    · simp at h
    · exact ih _ _ _ _ _ h hinv
    · rename_i tt s2 hhint
      have hstep := ih _ _ _ _ _ h (by
        intro l hl c hc
        cases auths with
        | none => simp at hl
        | some l0 =>
          simp only [Option.map_some', Option.some.injEq] at hl
          subst hl
          rcases List.mem_or_eq_of_mem_set hc with hc | rfl
          · exact hinv l0 rfl c hc
          · exact hQ _ _ _ _ hhint)
      refine ⟨hstep.1, hstep.2.trans ?_⟩
      cases auths <;> simp

/-- Shape of the tree `resolve` returns for a node with entity `e` that starts without authorities:
entity and subordinate are kept, an anchor gets no authorities, and every slot is as `Built`
describes. -/
theorem resolve_shape {σ : Type} (E : Env σ) (anchors : List TrustAnchor)
    (Pc Ps : EntityStatement → Prop) (hacc : Accepts E Pc Ps) (fuel : Nat) :
    ∀ (e : EntityStatement) (sub : Option EntityStatement) (s s1 : σ) (t1 : trustTree),
      resolve E anchors fuel (.mk (some e) sub none) s = some (t1, s1) →
      ∃ auths, t1 = .mk (some e) sub auths
        ∧ (SliceContains e.Issuer (EntityIDs anchors) = true → auths = none)
        ∧ (∀ l, auths = some l → ∀ c ∈ l, Built (EntityIDs anchors) Pc Ps e.Issuer c) := by
  induction fuel with
  | zero =>
    intro e sub s s1 t1 h
    simp [resolve] at h
  | succ n ih =>
    intro e sub s s1 t1 h
    rw [resolve] at h
    split at h
    · simp only [Option.some.injEq, Prod.mk.injEq] at h
      obtain ⟨rfl, rfl⟩ := h
      exact ⟨none, rfl, fun _ => rfl, fun l hl => by cases hl⟩
    · rename_i hanchor
      split at h
      · simp at h
      · rename_i auths1 s2 hloop
        simp only [Option.some.injEq, Prod.mk.injEq] at h
        obtain ⟨rfl, rfl⟩ := h
        refine ⟨auths1, rfl, fun hc => absurd hc hanchor, ?_⟩
        refine (resolveLoop_inv E (resolve E anchors n) e
          (Built (EntityIDs anchors) Pc Ps e.Issuer) ?_ e.AuthorityHints 0 _ auths1 s _ hloop
          ?_).1
        · intro aID s0 s3 tt hhint
          obtain ⟨a, sb, s4, s5, md, fe, hget, hi, hsj, htv, _, _, _, hfetch, hsi, hss, hstv,
            hrec⟩ := resolveHint_some E _ e aID s0 s3 tt hhint
          obtain ⟨auths2, rfl, hanch, hbuilt⟩ := ih a (some sb) s5 s3 tt hrec
          exact Built.node e.Issuer a sb auths2 (hi.trans hsi.symm) (hsj.trans hsi.symm) hss
            (hacc.1 aID s0 a s4 hget hi hsj htv)
            (hacc.2 _ _ _ s4 sb s5 hfetch hsi hss hstv) hanch hbuilt
        · intro l hl c hc
          split at hl
          · simp only [Option.some.injEq] at hl
            subst hl
            rw [List.eq_of_mem_replicate hc]
            exact Built.slot _
          · cases hl

/-! ## The verifier on the trees `resolve` builds -/

/-- `SliceContains` decides membership. -/
theorem SliceContains_iff {C : Type} [DecidableEq C] (v : C) (l : List C) :
    SliceContains v l = true ↔ v ∈ l := by
  induction l with
  | nil => simp [SliceContains]
  | cons x xs ih =>
    by_cases h : x = v
    · simp [SliceContains, h]
    · have h1 : ¬ v = x := fun e => h e.symm
      simp [SliceContains, h, h1, ih]

/-- For a node whose two statements name the same issuer, the anchor case looks for an anchor of
that identifier. -/
theorem anchorMatches_eq (a sb : EntityStatement) (h1 : a.Issuer = sb.Issuer)
    (h2 : a.Subject = sb.Issuer) :
    anchorMatches a sb = fun t => decide (t.EntityID = sb.Issuer) := by
  funext t
  simp [anchorMatches, h1, h2]

/-- The first anchor of an identifier exists exactly when the identifier is among the anchors. -/
theorem find_anchor_none_iff (anchors : List TrustAnchor) (q : String) :
    anchors.find? (fun t => decide (t.EntityID = q)) = none
      ↔ SliceContains q (EntityIDs anchors) = false := by
  rw [List.find?_eq_none, ← Bool.not_eq_true, SliceContains_iff]
  simp only [EntityIDs, List.mem_map, decide_eq_true_eq, not_exists, not_and]

/-- A node the verifier accepted has its entity and its subordinate. -/
theorem Trusted.present {verify : EntityStatement → JWKS → Bool} {anchors : List TrustAnchor}
    {Pc Ps : EntityStatement → Prop} {p : String} {t : trustTree}
    (h : Trusted verify anchors Pc Ps p t) :
    ∃ a sb, t.Entity = some a ∧ t.Subordinate = some sb ∧ sb.Subject = p
      ∧ a.Issuer = sb.Issuer := by
  cases h
  · exact ⟨_, _, rfl, rfl, by assumption, by assumption⟩
  · exact ⟨_, _, rfl, rfl, by assumption, by assumption⟩

/-- The pruning loop completes when the node has its entity, every child verifies without runtime
failure, and every accepted child has its subordinate. -/
theorem verifyLoop_total (verify : EntityStatement → JWKS → Bool) (anchors : List TrustAnchor)
    (e : EntityStatement) (sub : Option EntityStatement) (rest : List trustTree) :
    ∀ (arr : List trustTree) (iValid : Nat),
      (∀ c ∈ rest, ∃ b c1, verifySignatures verify anchors c = some (b, c1)
        ∧ (b = true → ∃ csb, c1.Subordinate = some csb)) →
      ∃ r, verifyLoop verify anchors (some e) sub rest arr iValid = some r := by
  induction rest with
  | nil =>
    intro arr iValid _
    exact ⟨(arr, iValid), by simp [verifyLoop]⟩
  | cons tt rest ih =>
    intro arr iValid hch
    have hrest : ∀ c ∈ rest, ∃ b c1, verifySignatures verify anchors c = some (b, c1)
        ∧ (b = true → ∃ csb, c1.Subordinate = some csb) :=
      fun c hc => hch c (List.mem_cons_of_mem _ hc)
    obtain ⟨b, c1, hv, hsub⟩ := hch tt (List.mem_cons_self _ _)
    rw [verifyLoop, hv]
    cases b with
    | false => exact ih arr iValid hrest
    | true =>
      obtain ⟨csb, hcsb⟩ := hsub rfl
      simp only [hcsb]
      split
      · exact ih arr iValid hrest
      · split
        · exact ih arr iValid hrest
        · exact ih _ _ hrest

/-- The retained children of a node, in their pruned state, are accepted nodes that carry keys
verifying the node, when this holds of every child the verifier accepts. -/
theorem survivors_trusted (verify : EntityStatement → JWKS → Bool) (anchors : List TrustAnchor)
    (Pc Ps : EntityStatement → Prop) (e : EntityStatement) (sub : Option EntityStatement)
    (q : String) (l : List trustTree)
    (hch : ∀ c ∈ l, ∃ b c1, verifySignatures verify anchors c = some (b, c1)
      ∧ (b = true → Trusted verify anchors Pc Ps q c1)) :
    ∀ c1 ∈ (l.filter (survives verify anchors (some e) sub)).map (pruned verify anchors),
      Trusted verify anchors Pc Ps q c1
      ∧ ∃ csb, c1.Subordinate = some csb ∧ verify e csb.JWKS = true
        ∧ ∀ sb, sub = some sb → verify sb csb.JWKS = true := by
  intro c1 hc1
  obtain ⟨c, hc, rfl⟩ := List.mem_map.mp hc1
  obtain ⟨hcl, hsv⟩ := List.mem_filter.mp hc
  obtain ⟨b, c2, hv, htr⟩ := hch c hcl
  have hf := (verifySignatures_fields hv).2
  have hp : pruned verify anchors c = c2 := by simp [pruned, hv]
  simp only [survives, hv, Option.map_some', Bool.and_eq_true, beq_iff_eq, Option.some.injEq]
    at hsv
  obtain ⟨⟨hb, he⟩, hs⟩ := hsv
  rw [hp]
  refine ⟨htr hb, ?_⟩
  cases hcs : c.Subordinate with
  | none => simp [verifiesUnderChild, hcs] at he
  | some csb =>
    refine ⟨csb, hf.trans hcs, by simpa [verifiesUnderChild, hcs] using he, ?_⟩
    intro sb hsb
    subst hsb
    simpa [verifiesUnderChild, hcs] using hs

/-- The verifier completes on a node that has its entity, is not decided by an anchor, and whose
children verify without runtime failure into accepted nodes. -/
theorem verifySignatures_total_aux (verify : EntityStatement → JWKS → Bool)
    (anchors : List TrustAnchor) (Pc Ps : EntityStatement → Prop) (e : EntityStatement)
    (sub : Option EntityStatement) (q : String) (auths : Option (List trustTree))
    (hcase : anchorCase verify anchors (some e) sub = some none)
    (hch : ∀ l, auths = some l → ∀ c ∈ l, ∃ b c1, verifySignatures verify anchors c = some (b, c1)
      ∧ (b = true → Trusted verify anchors Pc Ps q c1)) :
    ∃ b t1, verifySignatures verify anchors (.mk (some e) sub auths) = some (b, t1) := by
  rw [verifySignatures_mk, hcase]
  cases auths with
  | none => exact ⟨_, _, rfl⟩
  | some l =>
    obtain ⟨r, hr⟩ := verifyLoop_total verify anchors e sub l l 0 (fun c hc => by
      obtain ⟨b, c1, hv, htr⟩ := hch l rfl c hc
      refine ⟨b, c1, hv, fun hb => ?_⟩
      obtain ⟨_, sb, _, hsb, _⟩ := (htr hb).present
      exact ⟨sb, hsb⟩)
    simp only [hr]
    exact ⟨_, _, rfl⟩

/-- On every slot that `resolve` builds the verifier completes, and a slot it accepts is, after
pruning, as `Trusted` describes. -/
theorem verify_built (verify : EntityStatement → JWKS → Bool) (anchors : List TrustAnchor)
    (Pc Ps : EntityStatement → Prop) (p : String) (t : trustTree)
    (h : Built (EntityIDs anchors) Pc Ps p t) :
    ∃ b t1, verifySignatures verify anchors t = some (b, t1)
      ∧ (b = true → Trusted verify anchors Pc Ps p t1) := by
  induction h with
  | slot p => exact ⟨false, trustTree.zero, rfl, fun h => by cases h⟩
  | node p a sb auths h1 h2 h3 hPc hPs hanch _ ih =>
    cases hfind : anchors.find? (fun t => decide (t.EntityID = sb.Issuer)) with
    | some ta =>
      have hnone : auths = none := by
        apply hanch
        cases hc : SliceContains a.Issuer (EntityIDs anchors) with
        | true => rfl
        | false =>
          rw [h1] at hc
          rw [(find_anchor_none_iff anchors sb.Issuer).mpr hc] at hfind
          cases hfind
      subst hnone
      refine ⟨verify a (anchorKeys ta a) && verify sb (anchorKeys ta a),
        .mk (some a) (some sb) none, ?_, ?_⟩
      · rw [verifySignatures_mk, anchorCase, verifyAnchors_eq, anchorMatches_eq a sb h1 h2, hfind]
        rfl
      · intro hb
        simp only [Bool.and_eq_true] at hb
        exact Trusted.anchor p a sb ta h1 h2 h3 hPc hPs hfind hb.1 hb.2
    | none =>
      have hcase : anchorCase verify anchors (some a) (some sb) = some none := by
        rw [anchorCase, verifyAnchors_eq, anchorMatches_eq a sb h1 h2, hfind]
        rfl
      obtain ⟨b, t1, hv⟩ := verifySignatures_total_aux verify anchors Pc Ps a (some sb) a.Issuer
        auths hcase ih
      refine ⟨b, t1, hv, fun hb => ?_⟩
      obtain ⟨rfl, hiff⟩ := verifySignatures_recursive_aux verify anchors _ _ auths b t1 hcase hv
      cases auths with
      | none => simp at hiff; simp [hiff] at hb
      | some l =>
        have hne := hiff.mp hb
        simp only [Option.getD_some] at hne
        have hsurv := survivors_trusted verify anchors Pc Ps a (some sb) a.Issuer l (ih l rfl)
        refine Trusted.inner p a sb _ h1 h2 h3 hPc hPs ?_ (fun c hc => (hsurv c hc).1) ?_
        · simpa using hne
        · intro c hc
          obtain ⟨csb, hcsb, hva, hvs⟩ := (hsurv c hc).2
          exact ⟨csb, hcsb, hva, hvs sb rfl⟩

/-! ## The chains of accepted nodes -/

/-- `TrustResolver.Chains` puts the root entity in front of every chain of the tree. -/
theorem Chains_eq_map (r : TrustResolver) :
    r.Chains = (chains r.trustTree).map (fun c => r.trustTree.Entity :: c) := by
  unfold TrustResolver.Chains
  split
  · rename_i h
    simp [h]
  · rw [foldl_append_singleton]
    simp

/-- An accepted node yields at least one chain, and each of its chains is a list of present
statements that starts with the subordinate of the node and is as `TailOK` describes. -/
theorem chains_trusted (verify : EntityStatement → JWKS → Bool) (anchors : List TrustAnchor)
    (Pc Ps : EntityStatement → Prop) (p : String) (t : trustTree)
    (h : Trusted verify anchors Pc Ps p t) :
    chains t ≠ []
    ∧ ∀ ch ∈ chains t, ∃ sts, ch = sts.map some ∧ TailOK verify anchors Pc Ps p sts
        ∧ sts.head? = t.Subordinate := by
  induction h with
  | anchor p a sb ta h1 h2 h3 hPc hPs hfind hva hvs =>
    refine ⟨by simp [chains], ?_⟩
    intro ch hch
    simp only [chains, reduceCtorEq, if_false, List.mem_singleton] at hch
    subst hch
    exact ⟨[sb], rfl, ⟨h3, hPs, ta, a, hfind, h1, h2, hPc, hva, hvs⟩, rfl⟩
  | inner p a sb l h1 h2 h3 hPc hPs hne _ hkeys ih =>
    have hchains : chains (.mk (some a) (some sb) (some l))
        = l.flatMap (fun c => (chains c).map (fun ch => some sb :: ch)) := by
      rw [chains, chainsLoop_flatMap]
      simp
    rw [hchains]
    constructor
    · obtain ⟨c, rest, rfl⟩ := List.exists_cons_of_ne_nil hne
      have hc := (ih c (List.mem_cons_self _ _)).1
      simp [hc]
    · intro ch hch
      obtain ⟨c, hc, hch1⟩ := List.mem_flatMap.mp hch
      obtain ⟨ch1, hch1m, rfl⟩ := List.mem_map.mp hch1
      obtain ⟨sts, rfl, htail, hhead⟩ := (ih c hc).2 ch1 hch1m
      obtain ⟨csb, hcsb, _, hvsb⟩ := hkeys c hc
      rw [hcsb] at hhead
      cases sts with
      | nil => simp at hhead
      | cons x rest =>
        simp only [List.head?_cons, Option.some.injEq] at hhead
        subst hhead
        refine ⟨sb :: x :: rest, rfl, ⟨h3, hPs, hvsb, ?_⟩, rfl⟩
        rw [← h1]
        exact htail

/-! ## The pipeline `Resolve`, `VerifySignatures`, `Chains` on a fresh resolver -/

/-- What `Resolve` leaves in a fresh resolver: the untouched zero tree when the starting
configuration cannot be obtained, else a root that holds the configuration (after the pruning by
`Types`), no subordinate, and slots as `Built` describes. -/
theorem Resolve_new_shape {σ : Type} (E : Env σ) (anchors : List TrustAnchor)
    (starting : String) (types : List String) (Pc Ps : EntityStatement → Prop)
    (hacc : Accepts E Pc Ps) (fuel : Nat) (s s1 : σ) (r1 : TrustResolver)
    (h : (TrustResolver.new anchors starting types).Resolve E fuel s = some (r1, s1)) :
    r1.TrustAnchors = anchors
    ∧ ((∃ err, GetEntityConfiguration E starting s = (.error err, s1)
          ∧ r1.trustTree = trustTree.zero)
      ∨ (∃ fetched s0 auths, GetEntityConfiguration E starting s = (.ok fetched, s0)
          ∧ r1.trustTree = .mk (some (applyTypes E types fetched)) none auths
          ∧ (SliceContains (applyTypes E types fetched).Issuer (EntityIDs anchors) = true →
              auths = none)
          ∧ ∀ l, auths = some l → ∀ c ∈ l,
              Built (EntityIDs anchors) Pc Ps (applyTypes E types fetched).Issuer c)) := by
  unfold TrustResolver.Resolve at h
  simp only [TrustResolver.new] at h
  split at h
  · rename_i err s2 hget
    simp only [Option.some.injEq, Prod.mk.injEq] at h
    obtain ⟨rfl, rfl⟩ := h
    exact ⟨rfl, Or.inl ⟨err, hget, rfl⟩⟩
  · rename_i fetched s0 hget
    split at h
    · simp at h
    · rename_i t s2 hres
      simp only [Option.some.injEq, Prod.mk.injEq] at h
      obtain ⟨rfl, rfl⟩ := h
      obtain ⟨auths, rfl, hanch, hbuilt⟩ := resolve_shape E anchors Pc Ps hacc fuel
        (applyTypes E types fetched) none s0 _ t hres
      exact ⟨rfl, Or.inr ⟨fetched, s0, auths, hget, rfl, hanch, hbuilt⟩⟩

/-- The verifier on a root that holds its entity, no subordinate, and slots built by `resolve`: it
completes, keeps the children that meet the conditions of `survives`, and every child it keeps is
an accepted node carrying keys that verify the root entity. -/
theorem verify_root (verify : EntityStatement → JWKS → Bool) (anchors : List TrustAnchor)
    (Pc Ps : EntityStatement → Prop) (e0 : EntityStatement) (auths : Option (List trustTree))
    (hbuilt : ∀ l, auths = some l → ∀ c ∈ l, Built (EntityIDs anchors) Pc Ps e0.Issuer c) :
    ∃ b, verifySignatures verify anchors (.mk (some e0) none auths)
        = some (b, .mk (some e0) none
            (auths.map (fun l =>
              (l.filter (survives verify anchors (some e0) none)).map (pruned verify anchors))))
      ∧ (b = true ↔ (auths.getD []).filter (survives verify anchors (some e0) none) ≠ [])
      ∧ ∀ l, auths = some l →
          ∀ c1 ∈ (l.filter (survives verify anchors (some e0) none)).map (pruned verify anchors),
            Trusted verify anchors Pc Ps e0.Issuer c1
            ∧ ∃ csb, c1.Subordinate = some csb ∧ verify e0 csb.JWKS = true := by
  have hch : ∀ l, auths = some l → ∀ c ∈ l, ∃ b c1,
      verifySignatures verify anchors c = some (b, c1)
      ∧ (b = true → Trusted verify anchors Pc Ps e0.Issuer c1) :=
    fun l hl c hc => verify_built verify anchors Pc Ps e0.Issuer c (hbuilt l hl c hc)
  obtain ⟨b, t1, hv⟩ := verifySignatures_total_aux verify anchors Pc Ps e0 none e0.Issuer auths
    rfl hch
  obtain ⟨rfl, hiff⟩ :=
    verifySignatures_recursive_aux verify anchors (some e0) none auths b t1 rfl hv
  refine ⟨b, hv, hiff, ?_⟩
  intro l hl c1 hc1
  obtain ⟨htr, csb, hcsb, hve, _⟩ :=
    survivors_trusted verify anchors Pc Ps e0 none e0.Issuer l (hch l hl) c1 hc1
  exact ⟨htr, csb, hcsb, hve⟩

/-- Every chain the pipeline returns on a fresh resolver is the stored starting configuration
followed by present statements `S₁ … Sₙ` (`n ≥ 1`) as `TailOK` describes, the configuration
verifying under the keys `S₁` carries. -/
theorem run_chain_ok {σ : Type} (E : Env σ) (anchors : List TrustAnchor) (starting : String)
    (types : List String) (Pc Ps : EntityStatement → Prop) (hacc : Accepts E Pc Ps) (fuel : Nat)
    (s s1 : σ) (cs : List TrustChain)
    (h : (TrustResolver.new anchors starting types).run E fuel s = some (cs, s1)) :
    ∀ ch ∈ cs, ∃ fetched s0 sts csb,
      GetEntityConfiguration E starting s = (.ok fetched, s0)
      ∧ ch = some (applyTypes E types fetched) :: sts.map some
      ∧ TailOK E.Verify anchors Pc Ps (applyTypes E types fetched).Issuer sts
      ∧ sts.head? = some csb
      ∧ E.Verify (applyTypes E types fetched) csb.JWKS = true := by
  unfold TrustResolver.run at h
  split at h
  · simp at h
  · rename_i r1 s2 hres
    obtain ⟨hanchors, hshape⟩ := Resolve_new_shape E anchors starting types Pc Ps hacc fuel s s2
      r1 hres
    unfold TrustResolver.VerifySignatures at h
    rw [hanchors] at h
    rcases hshape with ⟨err, _, htree⟩ | ⟨fetched, s0, auths, hget, htree, _, hbuilt⟩
    · rw [htree] at h
      simp only [trustTree.zero, verifySignatures_mk, anchorCase, Option.some.injEq,
        Prod.mk.injEq] at h
      obtain ⟨rfl, rfl⟩ := h
      intro ch hch
      simp [Chains_eq_map, chains] at hch
    · obtain ⟨b, hv, _, hkept⟩ := verify_root E.Verify anchors Pc Ps _ auths hbuilt
      rw [htree, hv] at h
      simp only [Option.some.injEq, Prod.mk.injEq] at h
      obtain ⟨rfl, rfl⟩ := h
      intro ch hch
      rw [Chains_eq_map] at hch
      obtain ⟨ch1, hch1, rfl⟩ := List.mem_map.mp hch
      cases auths with
      | none => simp [chains] at hch1
      | some l =>
        simp only [Option.map_some', chains, chainsLoop_flatMap, List.nil_append, if_true]
          at hch1
        obtain ⟨c1, hc1, hch2⟩ := List.mem_flatMap.mp hch1
        obtain ⟨htr, csb, hcsb, hve⟩ := hkept l rfl c1 hc1
        obtain ⟨sts, rfl, htail, hhead⟩ :=
          (chains_trusted E.Verify anchors Pc Ps _ c1 htr).2 ch1 hch2
        exact ⟨fetched, s0, sts, csb, hget, rfl, htail, hhead.trans hcsb, hve⟩

/-! ## Consequences of `TailOK` -/

/-- The statements of a tail are linked: the first is about `p`, each next one about the issuer
of the one before. -/
theorem TailOK.linked {verify : EntityStatement → JWKS → Bool} {anchors : List TrustAnchor}
    {Pc Ps : EntityStatement → Prop} (sts : List EntityStatement) :
    ∀ p, TailOK verify anchors Pc Ps p sts →
      ∃ x rest, sts = x :: rest ∧ x.Subject = p
        ∧ List.Chain' (fun prev next => next.Subject = prev.Issuer) sts := by
  induction sts with
  | nil => intro p h; exact absurd h (by simp [TailOK])
  | cons x rest ih =>
    intro p h
    cases rest with
    | nil =>
      simp only [TailOK] at h
      exact ⟨x, [], rfl, h.1, List.chain'_singleton x⟩
    | cons y more =>
      simp only [TailOK] at h
      obtain ⟨hx, _, _, htail⟩ := h
      obtain ⟨y1, more1, heq, hy, hchain⟩ := ih x.Issuer htail
      cases heq
      exact ⟨x, _, rfl, hx, List.chain'_cons.mpr ⟨hy, hchain⟩⟩

/-- Each statement of a tail verifies under the keys the next one carries. -/
theorem TailOK.signed {verify : EntityStatement → JWKS → Bool} {anchors : List TrustAnchor}
    {Pc Ps : EntityStatement → Prop} (sts : List EntityStatement) :
    ∀ p, TailOK verify anchors Pc Ps p sts →
      List.Chain' (fun st next => verify st next.JWKS = true) sts := by
  induction sts with
  | nil => intro p h; exact absurd h (by simp [TailOK])
  | cons x rest ih =>
    intro p h
    cases rest with
    | nil => exact List.chain'_singleton x
    | cons y more =>
      simp only [TailOK] at h
      exact List.chain'_cons.mpr ⟨h.2.2.1, ih x.Issuer h.2.2.2⟩

/-- The last statement of a tail is issued by an anchor and verifies, together with a
self-signed configuration of that anchor, under the keys of the first anchor of that identifier. -/
theorem TailOK.last {verify : EntityStatement → JWKS → Bool} {anchors : List TrustAnchor}
    {Pc Ps : EntityStatement → Prop} (sts : List EntityStatement) :
    ∀ p, TailOK verify anchors Pc Ps p sts →
      ∃ sn ta cfg, sts.getLast? = some sn
        ∧ anchors.find? (fun t => decide (t.EntityID = sn.Issuer)) = some ta
        ∧ cfg.Issuer = sn.Issuer ∧ cfg.Subject = sn.Issuer ∧ Pc cfg
        ∧ verify cfg (anchorKeys ta cfg) = true ∧ verify sn (anchorKeys ta cfg) = true := by
  induction sts with
  | nil => intro p h; exact absurd h (by simp [TailOK])
  | cons x rest ih =>
    intro p h
    cases rest with
    | nil =>
      simp only [TailOK] at h
      obtain ⟨_, _, ta, cfg, h1, h2, h3, h4, h5, h6⟩ := h
      exact ⟨x, ta, cfg, rfl, h1, h2, h3, h4, h5, h6⟩
    | cons y more =>
      simp only [TailOK] at h
      obtain ⟨sn, ta, cfg, hlast, hrest⟩ := ih x.Issuer h.2.2.2
      exact ⟨sn, ta, cfg, by rw [List.getLast?_cons_cons]; exact hlast, hrest⟩

/-- Every statement of a tail has the property `Ps` of accepted subordinate statements. -/
theorem TailOK.all {verify : EntityStatement → JWKS → Bool} {anchors : List TrustAnchor}
    {Pc Ps : EntityStatement → Prop} (sts : List EntityStatement) :
    ∀ p, TailOK verify anchors Pc Ps p sts → ∀ st ∈ sts, Ps st := by
  induction sts with
  | nil => intro p h; exact absurd h (by simp [TailOK])
  | cons x rest ih =>
    intro p h st hst
    cases rest with
    | nil =>
      simp only [TailOK] at h
      simp only [List.mem_singleton] at hst
      subst hst
      exact h.2.1
    | cons y more =>
      simp only [TailOK] at h
      rcases List.mem_cons.mp hst with rfl | hst
      · exact h.2.1
      · exact ih x.Issuer h.2.2.2 st hst

/-- Nothing is assumed of the statements when `Pc` and `Ps` are trivial. -/
theorem Accepts.trivial {σ : Type} (E : Env σ) : Accepts E (fun _ => True) (fun _ => True) :=
  ⟨fun _ _ _ _ _ _ _ _ => True.intro, fun _ _ _ _ _ _ _ _ _ _ => True.intro⟩

/-! ## Properties of the returned chains -/

/-- C1: every chain that `Resolve`, `VerifySignatures`, `Chains` return on a fresh resolver is a
list of present statements `[S₀, …, Sₙ]` where `S₀` is the configuration fetched for the starting
entity, as `Resolve` stored it (the same statement up to the metadata pruned by `Types`, and the
very same when `Types` is empty), and every later statement is about the issuer of the one
before it. -/
theorem chains_linked {σ : Type} (E : Env σ) (anchors : List TrustAnchor) (starting : String)
    (types : List String) (fuel : Nat) (s s1 : σ) (cs : List TrustChain)
    (h : (TrustResolver.new anchors starting types).run E fuel s = some (cs, s1)) :
    ∀ ch ∈ cs, ∃ fetched s0 S0 sts,
      GetEntityConfiguration E starting s = (.ok fetched, s0)
      ∧ S0 = applyTypes E types fetched
      ∧ S0 = { fetched with Metadata := S0.Metadata }
      ∧ (types = [] → S0 = fetched)
      ∧ ch = (S0 :: sts).map some
      ∧ List.Chain' (fun prev next => next.Subject = prev.Issuer) (S0 :: sts) := by
  intro ch hch
  obtain ⟨fetched, s0, sts, csb, hget, rfl, htail, _, _⟩ :=
    run_chain_ok E anchors starting types (fun _ => True) (fun _ => True) (Accepts.trivial E)
      fuel s s1 cs h ch hch
  obtain ⟨x, rest, rfl, hx, hchain⟩ := TailOK.linked sts _ htail
  refine ⟨fetched, s0, applyTypes E types fetched, x :: rest, hget, rfl, ?_, ?_, rfl,
    List.chain'_cons.mpr ⟨hx, hchain⟩⟩
  · unfold applyTypes
    split <;> rfl
  · intro ht
    simp [applyTypes, ht]

/-- C1 on the demonstration federation: the one chain returned for `e` is its configuration, the
statement of `i` about `e` and the statement of `ta` about `i`. -/
theorem chains_linked_witness :
    (TrustResolver.new demoAnchors "e" []).run demoEnv 3 ()
        = some ([[some eCfg, some iAboutE, some taAboutI]], ())
    ∧ ∀ ch ∈ [[some eCfg, some iAboutE, some taAboutI]], ∃ fetched s0 S0 sts,
        GetEntityConfiguration demoEnv "e" () = (.ok fetched, s0)
        ∧ S0 = applyTypes demoEnv [] fetched
        ∧ S0 = { fetched with Metadata := S0.Metadata }
        ∧ (([] : List String) = [] → S0 = fetched)
        ∧ ch = (S0 :: sts).map some
        ∧ List.Chain' (fun prev next => next.Subject = prev.Issuer) (S0 :: sts) :=
  ⟨rfl, chains_linked demoEnv demoAnchors "e" [] 3 () () _ rfl⟩

/-- C2: every chain that `Resolve`, `VerifySignatures`, `Chains` return on a fresh resolver is
`[S₀, S₁, …, Sₙ]` with `n ≥ 1`, and the issuer of its last statement `Sₙ` is the entity identifier
of a trust anchor of the resolver. -/
theorem chains_end_at_anchor {σ : Type} (E : Env σ) (anchors : List TrustAnchor)
    (starting : String) (types : List String) (fuel : Nat) (s s1 : σ) (cs : List TrustChain)
    (h : (TrustResolver.new anchors starting types).run E fuel s = some (cs, s1)) :
    ∀ ch ∈ cs, ∃ S0 sts sn ta,
      ch = (S0 :: sts).map some ∧ (S0 :: sts).getLast? = some sn ∧ sts.getLast? = some sn
      ∧ ta ∈ anchors ∧ sn.Issuer = ta.EntityID := by
  intro ch hch
  obtain ⟨fetched, s0, sts, csb, _, rfl, htail, _, _⟩ :=
    run_chain_ok E anchors starting types (fun _ => True) (fun _ => True) (Accepts.trivial E)
      fuel s s1 cs h ch hch
  obtain ⟨sn, ta, cfg, hlast, hfind, _⟩ := TailOK.last sts _ htail
  refine ⟨applyTypes E types fetched, sts, sn, ta, rfl, ?_, hlast, List.mem_of_find?_eq_some hfind,
    ?_⟩
  · cases sts with
    | nil => simp at hlast
    | cons x rest => rw [List.getLast?_cons_cons]; exact hlast
  · have := List.find?_some hfind
    simp only [decide_eq_true_eq] at this
    exact this.symm

/-- C2 on the demonstration federation: the chain returned for `e` ends with the statement of
the anchor `ta` about `i`. -/
theorem chains_end_at_anchor_witness :
    (TrustResolver.new demoAnchors "e" []).run demoEnv 3 ()
        = some ([[some eCfg, some iAboutE, some taAboutI]], ())
    ∧ ∀ ch ∈ [[some eCfg, some iAboutE, some taAboutI]], ∃ S0 sts sn ta,
        ch = (S0 :: sts).map some ∧ (S0 :: sts).getLast? = some sn ∧ sts.getLast? = some sn
        ∧ ta ∈ demoAnchors ∧ sn.Issuer = ta.EntityID :=
  ⟨rfl, chains_end_at_anchor demoEnv demoAnchors "e" [] 3 () () _ rfl⟩

/-- C5: in every chain `[S₀, …, Sₙ]` that `Resolve`, `VerifySignatures`, `Chains` return on a fresh
resolver, every statement but the last verifies under the key set carried by the next one, and
the last one verifies under the key set of the first anchor `ta` that has its issuer as
identifier or, when `ta` has no key set, under the key set of a configuration `cfg` that was
fetched for the identifier of `ta`, is self-signed by it and verifies under its own keys. -/
theorem chains_signed {σ : Type} (E : Env σ) (anchors : List TrustAnchor) (starting : String)
    (types : List String) (fuel : Nat) (s s1 : σ) (cs : List TrustChain)
    (h : (TrustResolver.new anchors starting types).run E fuel s = some (cs, s1)) :
    ∀ ch ∈ cs, ∃ sts sn ta cfg sf,
      ch = sts.map some
      ∧ List.Chain' (fun st next => E.Verify st next.JWKS = true) sts
      ∧ sts.getLast? = some sn
      ∧ anchors.find? (fun t => decide (t.EntityID = sn.Issuer)) = some ta
      ∧ (GetEntityConfiguration E ta.EntityID sf).1 = .ok cfg
      ∧ cfg.Issuer = ta.EntityID ∧ cfg.Subject = ta.EntityID
      ∧ E.Verify cfg (anchorKeys ta cfg) = true
      ∧ E.Verify sn (anchorKeys ta cfg) = true := by
  intro ch hch
  have hacc : Accepts E
      (fun a => ∃ sf, (GetEntityConfiguration E a.Issuer sf).1 = .ok a) (fun _ => True) :=
    ⟨fun aID s0 a s2 hget hi _ _ => ⟨s0, by rw [hi, hget]⟩,
      fun _ _ _ _ _ _ _ _ _ _ => True.intro⟩
  obtain ⟨fetched, s0, sts, csb, _, rfl, htail, hhead, hS0⟩ :=
    run_chain_ok E anchors starting types _ _ hacc fuel s s1 cs h ch hch
  obtain ⟨sn, ta, cfg, hlast, hfind, hci, hcs, ⟨sf, hsf⟩, hvc, hvs⟩ := TailOK.last sts _ htail
  have hta : ta.EntityID = sn.Issuer := by
    have := List.find?_some hfind
    simpa using this
  refine ⟨applyTypes E types fetched :: sts, sn, ta, cfg, sf, rfl, ?_, ?_, hfind, ?_,
    hci.trans hta.symm, hcs.trans hta.symm, hvc, hvs⟩
  · cases sts with
    | nil => simp at hhead
    | cons x rest =>
      simp only [List.head?_cons, Option.some.injEq] at hhead
      subst hhead
      exact List.chain'_cons.mpr ⟨hS0, TailOK.signed _ _ htail⟩
  · cases sts with
    | nil => simp at hlast
    | cons x rest => rw [List.getLast?_cons_cons]; exact hlast
  · rw [hta, ← hci]
    exact hsf

/-- C5 on the demonstration federation, where every statement is signed with the key of its
issuer and the anchor has no configured key set. -/
theorem chains_signed_witness :
    (TrustResolver.new demoAnchors "e" []).run demoEnv 3 ()
        = some ([[some eCfg, some iAboutE, some taAboutI]], ())
    ∧ ∀ ch ∈ [[some eCfg, some iAboutE, some taAboutI]], ∃ sts sn ta cfg sf,
        ch = sts.map some
        ∧ List.Chain' (fun st next => demoEnv.Verify st next.JWKS = true) sts
        ∧ sts.getLast? = some sn
        ∧ demoAnchors.find? (fun t => decide (t.EntityID = sn.Issuer)) = some ta
        ∧ (GetEntityConfiguration demoEnv ta.EntityID sf).1 = .ok cfg
        ∧ cfg.Issuer = ta.EntityID ∧ cfg.Subject = ta.EntityID
        ∧ demoEnv.Verify cfg (anchorKeys ta cfg) = true
        ∧ demoEnv.Verify sn (anchorKeys ta cfg) = true :=
  ⟨rfl, chains_signed demoEnv demoAnchors "e" [] 3 () () _ rfl⟩

/-- C3 fails on the code: `Resolve` stores whatever configuration is fetched for the starting
entity without comparing its issuer and subject with the identifier asked for. In the
demonstration federation the identifier `alias` is served the configuration of `e`, and the
chain returned for `alias` starts with a statement whose issuer and subject are `e`. -/
theorem starting_identity_unchecked :
    (TrustResolver.new demoAnchors "alias" []).run demoEnv 3 ()
        = some ([[some eCfg, some iAboutE, some taAboutI]], ())
    ∧ eCfg.Issuer ≠ "alias" ∧ eCfg.Subject ≠ "alias" :=
  ⟨rfl, by decide, by decide⟩

/-- C4 fails on the code for `S₀`: `Resolve` never calls `TimeValid` on the starting
configuration. In the demonstration federation the clock always reads 50, the configuration of
`old` expired at 10, and it is the first statement of the chain returned for `old`. -/
theorem starting_time_unchecked :
    (∀ s, demoEnv.now s = 50)
    ∧ (TrustResolver.new demoAnchors "old" []).run demoEnv 3 ()
        = some ([[some oldCfg, some taAboutOld]], ())
    ∧ oldCfg.TimeValid 50 = false :=
  ⟨fun _ => rfl, rfl, by decide⟩

/-- With the clock fixed at `T`, every statement after the first of every chain returned by the
pipeline on a fresh resolver is time-valid at `T`. -/
theorem chains_tail_time_valid {σ : Type} (E : Env σ) (anchors : List TrustAnchor)
    (starting : String) (types : List String) (fuel : Nat) (s s1 : σ) (cs : List TrustChain)
    (T : Int) (hclock : ∀ s0, E.now s0 = T)
    (h : (TrustResolver.new anchors starting types).run E fuel s = some (cs, s1)) :
    ∀ ch ∈ cs, ∃ S0 sts, ch = (S0 :: sts).map some ∧ ∀ st ∈ sts, st.TimeValid T = true := by
  intro ch hch
  have hacc : Accepts E (fun _ => True) (fun sb => sb.TimeValid T = true) :=
    ⟨fun _ _ _ _ _ _ _ _ => True.intro,
      fun _ _ _ _ sb s2 _ _ _ htv => by rw [← hclock s2]; exact htv⟩
  obtain ⟨fetched, s0, sts, csb, _, rfl, htail, _, _⟩ :=
    run_chain_ok E anchors starting types _ _ hacc fuel s s1 cs h ch hch
  exact ⟨_, sts, rfl, TailOK.all sts _ htail⟩

/-! ## Absent statements are never read -/

/-- C9: when the configuration of the starting entity cannot be obtained (fetch or parse error),
`Resolve` returns with the tree of a fresh resolver still empty, `VerifySignatures` completes on it
without runtime failure and leaves it empty, and `Chains` and `ResolveToValidChains` return no
chain; no recursion budget is needed. -/
theorem failed_start_yields_nothing {σ : Type} (E : Env σ) (anchors : List TrustAnchor)
    (starting : String) (types : List String) (fuel : Nat) (s s1 : σ) (err : String)
    (h : GetEntityConfiguration E starting s = (.error err, s1)) :
    (TrustResolver.new anchors starting types).Resolve E fuel s
        = some (TrustResolver.new anchors starting types, s1)
    ∧ (TrustResolver.new anchors starting types).trustTree = trustTree.zero
    ∧ (TrustResolver.new anchors starting types).VerifySignatures E.Verify
        = some (TrustResolver.new anchors starting types)
    ∧ (TrustResolver.new anchors starting types).Chains = []
    ∧ (TrustResolver.new anchors starting types).ResolveToValidChains E fuel s = some ([], s1) := by
  have hres : (TrustResolver.new anchors starting types).Resolve E fuel s
      = some (TrustResolver.new anchors starting types, s1) := by
    unfold TrustResolver.Resolve
    simp only [TrustResolver.new] at h ⊢
    rw [h]
  have hver : (TrustResolver.new anchors starting types).VerifySignatures E.Verify
      = some (TrustResolver.new anchors starting types) := by
    simp [TrustResolver.VerifySignatures, TrustResolver.new, trustTree.zero, verifySignatures_mk,
      anchorCase]
  have hchains : (TrustResolver.new anchors starting types).Chains = [] := by
    simp [Chains_eq_map, TrustResolver.new, trustTree.zero, chains]
  refine ⟨hres, rfl, hver, hchains, ?_⟩
  unfold TrustResolver.ResolveToValidChains
  simp only [hres, hver, hchains]
  rfl

/-- C9 on the demonstration federation: the identifier `bad` is unreachable. -/
theorem failed_start_yields_nothing_witness :
    GetEntityConfiguration demoEnv "bad" () = (.error "unreachable", ())
    ∧ (TrustResolver.new demoAnchors "bad" []).Resolve demoEnv 0 ()
        = some (TrustResolver.new demoAnchors "bad" [], ())
    ∧ (TrustResolver.new demoAnchors "bad" []).trustTree = trustTree.zero
    ∧ (TrustResolver.new demoAnchors "bad" []).VerifySignatures demoEnv.Verify
        = some (TrustResolver.new demoAnchors "bad" [])
    ∧ (TrustResolver.new demoAnchors "bad" []).Chains = []
    ∧ (TrustResolver.new demoAnchors "bad" []).ResolveToValidChains demoEnv 0 () = some ([], ()) :=
  ⟨rfl, failed_start_yields_nothing demoEnv demoAnchors "bad" [] 0 () () "unreachable" rfl⟩

/-- The check along a list of authorities holds when it holds of every element. -/
theorem noEmptySlotIn_of_forall (l : List trustTree)
    (h : ∀ c ∈ l, c.Entity.isSome = true ∧ c.Subordinate.isSome = true ∧ noEmptySlot c = true) :
    noEmptySlotIn l = true := by
  induction l with
  | nil => rfl
  | cons c rest ih =>
    obtain ⟨h1, h2, h3⟩ := h c (List.mem_cons_self _ _)
    simp [noEmptySlotIn, h1, h2, h3, ih (fun d hd => h d (List.mem_cons_of_mem _ hd))]

/-- An accepted node has its two statements and no empty slot below it. -/
theorem Trusted.clean {verify : EntityStatement → JWKS → Bool} {anchors : List TrustAnchor}
    {Pc Ps : EntityStatement → Prop} {p : String} {t : trustTree}
    (h : Trusted verify anchors Pc Ps p t) :
    t.Entity.isSome = true ∧ t.Subordinate.isSome = true ∧ noEmptySlot t = true := by
  induction h with
  | anchor p a sb ta => exact ⟨rfl, rfl, rfl⟩
  | inner p a sb l h1 h2 h3 hPc hPs hne _ _ ih =>
    exact ⟨rfl, rfl, by rw [noEmptySlot]; exact noEmptySlotIn_of_forall l ih⟩

/-- The zero value in a slot never meets the conditions for being retained. -/
theorem survives_zero (verify : EntityStatement → JWKS → Bool) (anchors : List TrustAnchor)
    (ent sub : Option EntityStatement) : survives verify anchors ent sub trustTree.zero = false := by
  simp [survives, trustTree.zero, verifySignatures_mk, anchorCase]

/-- C10: on the tree that `Resolve` builds in a fresh resolver, whatever the obtainer and the
anchors, `verifySignatures` completes without reading an absent entity or subordinate (`chains`
reads none by construction); afterwards no list of authorities, at any depth, holds a node without
entity or subordinate; an empty slot is never retained; and the chains of the pruned tree are
those of the retained children of the root, in the order of the hints. -/
theorem resolved_tree_is_safe {σ : Type} (E : Env σ) (anchors : List TrustAnchor)
    (starting : String) (types : List String) (fuel : Nat) (s s1 : σ) (r1 : TrustResolver)
    (h : (TrustResolver.new anchors starting types).Resolve E fuel s = some (r1, s1)) :
    ∃ b t2, verifySignatures E.Verify r1.TrustAnchors r1.trustTree = some (b, t2)
      ∧ noEmptySlot t2 = true
      ∧ survives E.Verify r1.TrustAnchors r1.trustTree.Entity r1.trustTree.Subordinate
          trustTree.zero = false
      ∧ chains t2
          = ((r1.trustTree.Authorities.getD []).filter
              (survives E.Verify r1.TrustAnchors r1.trustTree.Entity
                r1.trustTree.Subordinate)).flatMap
            (fun c => chains (pruned E.Verify r1.TrustAnchors c)) := by
  obtain ⟨hanchors, hshape⟩ := Resolve_new_shape E anchors starting types (fun _ => True)
    (fun _ => True) (Accepts.trivial E) fuel s s1 r1 h
  rw [hanchors]
  rcases hshape with ⟨err, _, htree⟩ | ⟨fetched, s0, auths, _, htree, _, hbuilt⟩
  · rw [htree]
    exact ⟨false, trustTree.zero, rfl, rfl, survives_zero _ _ _ _, rfl⟩
  · obtain ⟨b, hv, _, hkept⟩ := verify_root E.Verify anchors (fun _ => True) (fun _ => True) _
      auths hbuilt
    rw [htree]
    refine ⟨b, _, hv, ?_, survives_zero _ _ _ _, ?_⟩
    · cases auths with
      | none => rfl
      | some l =>
        simp only [Option.map_some', noEmptySlot]
        exact noEmptySlotIn_of_forall _ (fun c hc => (hkept l rfl c hc).1.clean)
    · cases auths with
      | none => simp [chains, trustTree.Authorities]
      | some l =>
        simp only [Option.map_some', chains, chainsLoop_flatMap, List.nil_append, if_true,
          trustTree.Authorities, trustTree.Entity, trustTree.Subordinate, Option.getD_some]
        rw [List.flatMap_map]

/-- C10 on the demonstration federation: the hint `bad` of `e` leaves an empty slot, the verifier
completes and drops it, and the chain through the hint `i` is returned. -/
theorem resolved_tree_is_safe_witness :
    (TrustResolver.new demoAnchors "e" []).Resolve demoEnv 3 ()
        = some ({ TrustAnchors := demoAnchors, StartingEntity := "e", Types := [],
                  trustTree := .mk (some eCfg) none
                    (some [trustTree.zero, intermediateNode]) },
                ())
    ∧ ∃ b t2, verifySignatures demoEnv.Verify demoAnchors
          (.mk (some eCfg) none
            (some [trustTree.zero, intermediateNode]))
          = some (b, t2)
      ∧ noEmptySlot t2 = true
      ∧ survives demoEnv.Verify demoAnchors (some eCfg) none trustTree.zero = false
      ∧ chains t2
          = ([trustTree.zero, intermediateNode].filter
              (survives demoEnv.Verify demoAnchors (some eCfg) none)).flatMap
            (fun c => chains (pruned demoEnv.Verify demoAnchors c)) :=
  ⟨rfl, resolved_tree_is_safe demoEnv demoAnchors "e" [] 3 () ()
    { TrustAnchors := demoAnchors, StartingEntity := "e", Types := [],
      trustTree := .mk (some eCfg) none
        (some [trustTree.zero, intermediateNode]) } rfl⟩

/-! ## The set helpers of `slices.go` -/

/-- `ReflectSliceContains` on a slice holds of the elements that are deeply equal to
themselves. -/
theorem ReflectSliceContains_slice {α : Type} [DecidableEq α] (r : α → Bool) (v : α)
    (xs : List α) :
    ReflectSliceContains (DeepEqual r) v (.slice xs) = true ↔ r v = true ∧ v ∈ xs := by
  have h : ∀ l : List α, reflectContainsLoop (DeepEqual r) v l = true ↔ r v = true ∧ v ∈ l := by
    intro l
    induction l with
    | nil => simp [reflectContainsLoop]
    | cons x rest ih =>
      by_cases hx : v = x
      · subst hx
        by_cases hr : r v = true
        · simp [reflectContainsLoop, DeepEqual, hr]
        · simp [reflectContainsLoop, DeepEqual, hr, ih]
      · simp [reflectContainsLoop, DeepEqual, hx, ih]
  simp [ReflectSliceContains, IsSlice, ValueOf, h]

/-- Removing later occurrences commutes with filtering. -/
theorem firstOccurrences_filter {α : Type} [DecidableEq α] (p : α → Bool) (l : List α) :
    firstOccurrences (l.filter p) = (firstOccurrences l).filter p := by
  induction l with
  | nil => rfl
  | cons x rest ih =>
    by_cases hx : p x = true
    · simp only [List.filter_cons, hx, if_true, firstOccurrences, ih, List.filter_filter]
      congr 1
      apply List.filter_congr
      intro y _
      exact Bool.and_comm _ _
    · simp only [List.filter_cons, hx, firstOccurrences, List.filter_filter]
      simp only [Bool.false_eq_true, if_false]
      rw [ih]
      apply List.filter_congr
      intro y _
      by_cases hy : p y = true
      · have hne : y ≠ x := fun e => hx (e ▸ hy)
        simp [hy, hne]
      · simp [hy]

/-- The loop of `ReflectUnion`, run over elements that are deeply equal to themselves, appends to
`out` the first occurrences of the elements it does not hold. -/
theorem unionLoop_eq {α : Type} [DecidableEq α] (r : α → Bool) (b out : List α)
    (hb : ∀ x ∈ b, r x = true) :
    unionLoop (DeepEqual r) b out = out ++ firstOccurrences (b.filter (fun x => x ∉ out)) := by
  induction b generalizing out with
  | nil => simp [unionLoop, firstOccurrences]
  | cons v rest ih =>
    have hrv : r v = true := hb v (List.mem_cons_self v rest)
    have hrest : ∀ x ∈ rest, r x = true := fun x hx => hb x (List.mem_cons_of_mem v hx)
    rw [unionLoop]
    by_cases hv : v ∈ out
    · have hc : ReflectSliceContains (DeepEqual r) v (.slice out) = true :=
        (ReflectSliceContains_slice r v out).mpr ⟨hrv, hv⟩
      simp only [hc, Bool.not_true, Bool.false_eq_true, if_false, ih out hrest]
      simp [List.filter_cons, hv]
    · have hc : ReflectSliceContains (DeepEqual r) v (.slice out) = false := by
        rw [← Bool.not_eq_true, ReflectSliceContains_slice]
        exact fun h => hv h.2
      simp only [hc, Bool.not_false, if_true, ih (out ++ [v]) hrest]
      have hf : rest.filter (fun x => decide (x ∉ out ++ [v]))
          = (rest.filter (fun x => decide (x ∉ out))).filter (fun x => decide (x ≠ v)) := by
        rw [List.filter_filter]
        apply List.filter_congr
        intro y _
        simp [not_or, and_comm]
      rw [hf, firstOccurrences_filter]
      simp [List.filter_cons, hv, firstOccurrences]

/-- C14, as amended: for all slices `a` and `b`, every element of `b` being deeply equal to itself
in the sense of `reflect.DeepEqual`, `ReflectUnion(a, b)` returns `a` followed by, in the order of
`b`, the first occurrence of each element of `b` that is not an element of `a`; the duplicates of
`a` itself are kept. -/
theorem ReflectUnion_eq_unionFirst {α : Type} [DecidableEq α] (selfEqual : α → Bool)
    (a b : List α) (hself : ∀ x ∈ b, selfEqual x = true) :
    ReflectUnion (DeepEqual selfEqual) (.slice a) (.slice b) = some (.slice (unionFirst a b)) := by
  simp [ReflectUnion, Slicify, GoAny.isNil, IsSlice, ValueOf, unionLoop_eq selfEqual b a hself,
    unionFirst]

/-- C14, as amended, on slices of floats: `[1, 1]` and `[2, 1, 2]` give `[1, 1, 2]`. -/
theorem ReflectUnion_eq_unionFirst_witness :
    (∀ x ∈ [Float64.num 2, Float64.num 1, Float64.num 2], Float64.selfEqual x = true)
    ∧ unionFirst [Float64.num 1, Float64.num 1] [Float64.num 2, Float64.num 1, Float64.num 2]
        = [Float64.num 1, Float64.num 1, Float64.num 2]
    ∧ ReflectUnion (DeepEqual Float64.selfEqual) (.slice [Float64.num 1, Float64.num 1])
          (.slice [Float64.num 2, Float64.num 1, Float64.num 2])
        = some (.slice (unionFirst [Float64.num 1, Float64.num 1]
            [Float64.num 2, Float64.num 1, Float64.num 2])) :=
  ⟨by decide, by decide,
    ReflectUnion_eq_unionFirst Float64.selfEqual [Float64.num 1, Float64.num 1]
      [Float64.num 2, Float64.num 1, Float64.num 2] (by decide)⟩

/-- C14, as stated, fails: an element of `b` that is absent from `a` and occurs twice in `b` is
added once only, because the loop looks it up in the growing result and not in `a`. -/
theorem ReflectUnion_keeps_first_only :
    ReflectUnion (DeepEqual allSelfEqual) (.slice ([] : List Nat)) (.slice [1, 1])
        = some (.slice [1])
    ∧ unionAll ([] : List Nat) [1, 1] = [1, 1]
    ∧ ReflectUnion (DeepEqual allSelfEqual) (.slice ([] : List Nat)) (.slice [1, 1])
        ≠ some (.slice (unionAll ([] : List Nat) [1, 1])) :=
  ⟨by decide, by decide, by decide⟩

/-- An element that is not deeply equal to itself is never found, so `ReflectUnion` appends every
occurrence of it: the union of `[NaN]` and `[NaN]` has two elements, and that of `[]` and
`[NaN, NaN]` keeps both. -/
theorem ReflectUnion_appends_NaN :
    ReflectUnion (DeepEqual Float64.selfEqual) (.slice [Float64.NaN]) (.slice [Float64.NaN])
        = some (.slice [Float64.NaN, Float64.NaN])
    ∧ unionFirst [Float64.NaN] [Float64.NaN] = [Float64.NaN]
    ∧ ReflectUnion (DeepEqual Float64.selfEqual) (.slice []) (.slice [Float64.NaN, Float64.NaN])
        = some (.slice [Float64.NaN, Float64.NaN]) :=
  ⟨by decide, by decide, by decide⟩

/-- `SliceEqual` on two slices: equal lengths and every element of the first deeply equal to
itself and in the second. -/
theorem SliceEqual_slice_iff {α : Type} [DecidableEq α] (r : α → Bool) (a b : List α) :
    SliceEqual (DeepEqual r) (.slice a) (.slice b) = true
      ↔ a.length = b.length ∧ ∀ x ∈ a, r x = true ∧ x ∈ b := by
  have hloop : ∀ l : List α,
      sliceEqualLoop (DeepEqual r) (.slice b) l = true ↔ ∀ x ∈ l, r x = true ∧ x ∈ b := by
    intro l
    induction l with
    | nil => simp [sliceEqualLoop]
    | cons x rest ih =>
      by_cases hx : r x = true ∧ x ∈ b
      · have hc := (ReflectSliceContains_slice r x b).mpr hx
        simp [sliceEqualLoop, hc, ih, hx.1, hx.2]
      · have hc : ReflectSliceContains (DeepEqual r) x (.slice b) = false := by
          rw [← Bool.not_eq_true, ReflectSliceContains_slice]
          exact hx
        simp only [sliceEqualLoop, hc, Bool.not_false, if_true, Bool.false_eq_true, false_iff]
        exact fun h => hx (h x (List.mem_cons_self x rest))
  by_cases hlen : a.length = b.length
  · simp [SliceEqual, Slicify, GoAny.isNil, IsSlice, ValueOf, hlen, hloop]
  · simp [SliceEqual, Slicify, GoAny.isNil, IsSlice, ValueOf, hlen]

/-- Among slices the first of which has no duplicates, `SliceEqual` holds exactly of the
permutations whose elements are deeply equal to themselves. -/
theorem SliceEqual_iff_perm_aux {α : Type} [DecidableEq α] (r : α → Bool) (a b : List α)
    (ha : a.Nodup) :
    SliceEqual (DeepEqual r) (.slice a) (.slice b) = true
      ↔ a.Perm b ∧ ∀ x ∈ a, r x = true := by
  rw [SliceEqual_slice_iff]
  constructor
  · rintro ⟨hlen, hsub⟩
    exact ⟨(ha.subperm (fun x hx => (hsub x hx).2)).perm_of_length_le (le_of_eq hlen.symm),
      fun x hx => (hsub x hx).1⟩
  · rintro ⟨hp, hr⟩
    exact ⟨hp.length_eq, fun x hx => ⟨hr x hx, hp.subset hx⟩⟩

/-- C15, as amended: for all slices `a` and `b` without duplicate elements,
`SliceEqual(a, b) == SliceEqual(b, a)`, whichever values `reflect.DeepEqual` holds equal to
themselves. -/
theorem SliceEqual_symm_of_nodup {α : Type} [DecidableEq α] (selfEqual : α → Bool)
    (a b : List α) (ha : a.Nodup) (hb : b.Nodup) :
    SliceEqual (DeepEqual selfEqual) (.slice a) (.slice b)
      = SliceEqual (DeepEqual selfEqual) (.slice b) (.slice a) := by
  have h1 := SliceEqual_iff_perm_aux selfEqual a b ha
  have h2 := SliceEqual_iff_perm_aux selfEqual b a hb
  have h12 : (a.Perm b ∧ ∀ x ∈ a, selfEqual x = true)
      → (b.Perm a ∧ ∀ x ∈ b, selfEqual x = true) :=
    fun h => ⟨h.1.symm, fun x hx => h.2 x (h.1.symm.subset hx)⟩
  have h21 : (b.Perm a ∧ ∀ x ∈ b, selfEqual x = true)
      → (a.Perm b ∧ ∀ x ∈ a, selfEqual x = true) :=
    fun h => ⟨h.1.symm, fun x hx => h.2 x (h.1.symm.subset hx)⟩
  cases hab : SliceEqual (DeepEqual selfEqual) (.slice a) (.slice b) with
  | true => exact (h2.mpr (h12 (h1.mp hab))).symm
  | false =>
    cases hba : SliceEqual (DeepEqual selfEqual) (.slice b) (.slice a) with
    | false => rfl
    | true =>
      rw [h1.mpr (h21 (h2.mp hba))] at hab
      cases hab

/-- C15, as amended, on the slices `[1, 2]` and `[2, 1]`. -/
theorem SliceEqual_symm_of_nodup_witness :
    ([1, 2] : List Nat).Nodup ∧ ([2, 1] : List Nat).Nodup
    ∧ SliceEqual (DeepEqual allSelfEqual) (.slice ([1, 2] : List Nat)) (.slice [2, 1])
        = SliceEqual (DeepEqual allSelfEqual) (.slice ([2, 1] : List Nat)) (.slice [1, 2]) :=
  ⟨by decide, by decide,
    SliceEqual_symm_of_nodup allSelfEqual [1, 2] [2, 1] (by decide) (by decide)⟩

/-- Slices of floats that hold the NaN are equal in neither order: `[1, NaN]` and `[NaN, 1]`. -/
theorem SliceEqual_NaN_neither_order :
    SliceEqual (DeepEqual Float64.selfEqual) (.slice [Float64.num 1, Float64.NaN])
        (.slice [Float64.NaN, Float64.num 1]) = false
    ∧ SliceEqual (DeepEqual Float64.selfEqual) (.slice [Float64.NaN, Float64.num 1])
        (.slice [Float64.num 1, Float64.NaN]) = false :=
  ⟨by decide, by decide⟩

/-- C15, as stated, fails on slices with duplicates: every element of `[1, 1]` is in `[1, 2]` and
the lengths agree, but `2` is not in `[1, 1]`. -/
theorem SliceEqual_not_symmetric :
    SliceEqual (DeepEqual allSelfEqual) (.slice ([1, 1] : List Nat)) (.slice [1, 2]) = true
    ∧ SliceEqual (DeepEqual allSelfEqual) (.slice ([1, 2] : List Nat)) (.slice [1, 1]) = false :=
  ⟨by decide, by decide⟩

/-- C16, as amended: for all slices `a` and `b` without duplicate elements, every element of `a`
being deeply equal to itself in the sense of `reflect.DeepEqual`, `SliceEqual(a, b)` is true if and
only if `b` is a permutation of `a`. -/
theorem SliceEqual_iff_perm {α : Type} [DecidableEq α] (selfEqual : α → Bool) (a b : List α)
    (hself : ∀ x ∈ a, selfEqual x = true) (ha : a.Nodup) (hb : b.Nodup) :
    SliceEqual (DeepEqual selfEqual) (.slice a) (.slice b) = true ↔ a.Perm b := by
  rw [SliceEqual_slice_iff]
  constructor
  · rintro ⟨hlen, hsub⟩
    have hsp : a.Subperm b := ha.subperm (fun x hx => (hsub x hx).2)
    exact hsp.perm_of_length_le (le_of_eq hlen.symm)
  · intro hp
    have _hb : b.Nodup := hb
    exact ⟨hp.length_eq, fun x hx => ⟨hself x hx, hp.subset hx⟩⟩

/-- C16, as amended, on the slices `[1, 2, 3]` and `[3, 1, 2]` of floats. -/
theorem SliceEqual_iff_perm_witness :
    (∀ x ∈ [Float64.num 1, Float64.num 2, Float64.num 3], Float64.selfEqual x = true)
    ∧ [Float64.num 1, Float64.num 2, Float64.num 3].Nodup
    ∧ [Float64.num 3, Float64.num 1, Float64.num 2].Nodup
    ∧ SliceEqual (DeepEqual Float64.selfEqual)
        (.slice [Float64.num 1, Float64.num 2, Float64.num 3])
        (.slice [Float64.num 3, Float64.num 1, Float64.num 2]) = true
    ∧ (SliceEqual (DeepEqual Float64.selfEqual)
          (.slice [Float64.num 1, Float64.num 2, Float64.num 3])
          (.slice [Float64.num 3, Float64.num 1, Float64.num 2]) = true
        ↔ [Float64.num 1, Float64.num 2, Float64.num 3].Perm
            [Float64.num 3, Float64.num 1, Float64.num 2]) :=
  ⟨by decide, by decide, by decide, by decide,
    SliceEqual_iff_perm Float64.selfEqual [Float64.num 1, Float64.num 2, Float64.num 3]
      [Float64.num 3, Float64.num 1, Float64.num 2] (by decide) (by decide) (by decide)⟩

/-- C16, as stated, fails on a value that is not deeply equal to itself: the slice `[NaN]` has no
duplicate and is a permutation of itself, and `SliceEqual([NaN], [NaN])` is false. -/
theorem SliceEqual_false_on_NaN :
    [Float64.NaN].Nodup ∧ [Float64.NaN].Perm [Float64.NaN]
    ∧ SliceEqual (DeepEqual Float64.selfEqual) (.slice [Float64.NaN]) (.slice [Float64.NaN])
        = false :=
  ⟨by decide, List.Perm.refl _, by decide⟩

/-- C20 fails on the code: with an untyped nil argument `ReflectUnion` fails at runtime whichever
argument is nil, and `ReflectIntersect` and `ReflectIsSubsetOf` fail when the first one is nil
(they do treat a nil second argument as the empty sequence), whereas `SliceEqual` returns because
of its guard; all of it whatever `reflect.DeepEqual` answers. -/
theorem reflect_helpers_fail_on_nil : ∀ deq : Nat → Nat → Bool,
    (∀ a : GoAny Nat, ReflectUnion deq a .nil = none)
    ∧ (∀ b : GoAny Nat, ReflectUnion deq .nil b = none)
    ∧ (∀ b : GoAny Nat, ReflectIntersect deq .nil b = none)
    ∧ (∀ b : GoAny Nat, ReflectIsSubsetOf deq .nil b = none)
    ∧ ReflectUnion deq (.slice [1]) (.nil : GoAny Nat) = none
    ∧ ReflectIntersect deq (.slice [1]) (.nil : GoAny Nat) = some (.slice [])
    ∧ ReflectIsSubsetOf deq (.slice [1]) (.nil : GoAny Nat) = some false
    ∧ SliceEqual deq (.slice [1]) (.nil : GoAny Nat) = false
    ∧ SliceEqual deq (.nil : GoAny Nat) .nil = true := by
  intro deq
  refine ⟨?_, ?_, ?_, ?_, rfl, rfl, rfl, rfl, rfl⟩
  · intro a
    simp [ReflectUnion, Slicify, GoAny.isNil, ValueOf]
  · intro b
    cases b <;> simp [ReflectUnion, Slicify, GoAny.isNil, ValueOf, IsSlice]
  · intro b
    simp [ReflectIntersect, Slicify, GoAny.isNil, ValueOf]
  · intro b
    simp [ReflectIsSubsetOf, Slicify, GoAny.isNil, ValueOf]

/-! ## Cached retrieval -/

/-- C17: with the cache an explicit map keyed by `(subject, issuer)`,
`getEntityStatementOrConfiguration(sub, iss, fetcher)` returns the cached statement without error
when the map holds an entry under `(sub, iss)`, whatever the fetcher does; on a miss it returns
the error of the fetcher, or the error of the parser, and then leaves the world as the fetcher
left it (nothing is put in the map); and when fetch and parse succeed it returns the parsed
statement and the map afterwards holds it under `(sub, iss)`, every other key being as the fetcher
left it. -/
theorem getEntityStatementOrConfiguration_map {ω : Type} (E : Env ω)
    (sched : (MapWorld ω → MapWorld ω) → MapWorld ω → MapWorld ω) (subID issID : String)
    (fetcher : MapWorld ω → Except String Bytes × MapWorld ω) (w : MapWorld ω) :
    (∀ stmt, w.lookup (subID, issID) = some stmt →
      (getEntityStatementOrConfiguration (withMapCache E sched) subID issID fetcher w).1
        = .ok stmt)
    ∧ (w.lookup (subID, issID) = none →
        (∀ err w1, fetcher w = (.error err, w1) →
          getEntityStatementOrConfiguration (withMapCache E sched) subID issID fetcher w
            = (.error err, w1))
        ∧ (∀ body w1 err, fetcher w = (.ok body, w1) →
            E.ParseEntityStatement body = .error err →
            getEntityStatementOrConfiguration (withMapCache E sched) subID issID fetcher w
              = (.error err, w1))
        ∧ (∀ body w1 stmt, fetcher w = (.ok body, w1) →
            E.ParseEntityStatement body = .ok stmt →
            ∃ w2, getEntityStatementOrConfiguration (withMapCache E sched) subID issID fetcher w
                = (.ok stmt, w2)
              ∧ w2.lookup (subID, issID) = some stmt
              ∧ (∀ key, key ≠ (subID, issID) → w2.lookup key = w1.lookup key)
              ∧ w2.outer = w1.outer)) := by
  constructor
  · intro stmt hhit
    simp [getEntityStatementOrConfiguration, entityStmtCacheGet, withMapCache, hhit]
  · intro hmiss
    have hget : entityStmtCacheGet (withMapCache E sched) subID issID w = none := by
      simp [entityStmtCacheGet, withMapCache, hmiss]
    refine ⟨?_, ?_, ?_⟩
    · intro err w1 hf
      simp [getEntityStatementOrConfiguration, hget,
        obtainAndSetEntityStatementOrConfiguration, hf]
    · intro body w1 err hf hp
      have hp1 : (withMapCache E sched).ParseEntityStatement body = .error err := hp
      simp [getEntityStatementOrConfiguration, hget,
        obtainAndSetEntityStatementOrConfiguration, hf, hp1]
    · intro body w1 stmt hf hp
      have hp1 : (withMapCache E sched).ParseEntityStatement body = .ok stmt := hp
      refine ⟨{ w1 with cache := ((subID, issID), stmt) :: w1.cache }, ?_, ?_, ?_, rfl⟩
      · simp only [getEntityStatementOrConfiguration, hget,
          obtainAndSetEntityStatementOrConfiguration, hf, hp1]
        rfl
      · simp [MapWorld.lookup]
      · intro key hkey
        have hne : ¬ (subID, issID) = key := fun e => hkey e.symm
        simp [MapWorld.lookup, List.find?_cons, hne]

/-! ## The result of the verifier and the chains -/

/-- C19: for the root that `Resolve` builds in a fresh resolver (it has no subordinate), the
verifier completes and its result is true if and only if `chains` on the pruned tree returns at
least one chain; every child that is left after pruning has at least one chain, and a root without
a child left has none. -/
theorem verify_true_iff_chains {σ : Type} (E : Env σ) (anchors : List TrustAnchor)
    (starting : String) (types : List String) (fuel : Nat) (s s1 : σ) (r1 : TrustResolver)
    (h : (TrustResolver.new anchors starting types).Resolve E fuel s = some (r1, s1)) :
    r1.trustTree.Subordinate = none
    ∧ ∃ b t2, verifySignatures E.Verify r1.TrustAnchors r1.trustTree = some (b, t2)
      ∧ (b = true ↔ chains t2 ≠ [])
      ∧ (∀ c ∈ t2.Authorities.getD [], chains c ≠ [])
      ∧ (t2.Authorities.getD [] = [] → chains t2 = []) := by
  obtain ⟨hanchors, hshape⟩ := Resolve_new_shape E anchors starting types (fun _ => True)
    (fun _ => True) (Accepts.trivial E) fuel s s1 r1 h
  rw [hanchors]
  rcases hshape with ⟨err, _, htree⟩ | ⟨fetched, s0, auths, _, htree, _, hbuilt⟩
  · rw [htree]
    refine ⟨rfl, false, trustTree.zero, rfl, by simp [trustTree.zero, chains], ?_, fun _ => rfl⟩
    intro c hc
    simp [trustTree.zero, trustTree.Authorities] at hc
  · obtain ⟨b, hv, hiff, hkept⟩ := verify_root E.Verify anchors (fun _ => True) (fun _ => True) _
      auths hbuilt
    rw [htree]
    refine ⟨rfl, b, _, hv, ?_, ?_, ?_⟩
    · cases auths with
      | none =>
        simp only [Option.getD_none, List.filter_nil, ne_eq, not_true_eq_false, iff_false]
          at hiff
        simp [hiff, chains]
      | some l =>
        rw [hiff]
        simp only [Option.getD_some, Option.map_some', chains, chainsLoop_flatMap,
          List.nil_append, if_true]
        constructor
        · intro hne
          obtain ⟨c, rest, hcr⟩ := List.exists_cons_of_ne_nil hne
          have hc : pruned E.Verify anchors c ∈
              (l.filter (survives E.Verify anchors (some (applyTypes E types fetched)) none)).map
                (pruned E.Verify anchors) := by
            rw [hcr]
            simp
          have hch := (chains_trusted E.Verify anchors _ _ _ _ (hkept l rfl _ hc).1).1
          intro hnil
          rw [List.flatMap_eq_nil_iff] at hnil
          exact hch (hnil _ hc)
        · intro hne hnil
          rw [hnil] at hne
          simp at hne
    · intro c hc
      cases auths with
      | none => simp [trustTree.Authorities] at hc
      | some l =>
        simp only [Option.map_some', trustTree.Authorities, Option.getD_some] at hc
        exact (chains_trusted E.Verify anchors _ _ _ _ (hkept l rfl c hc).1).1
    · intro hnil
      cases auths with
      | none => simp [chains]
      | some l =>
        simp only [Option.map_some', trustTree.Authorities, Option.getD_some] at hnil
        simp [chains, chainsLoop_flatMap, hnil]

/-- C19 on the demonstration federation: the verifier returns true on the root built for `e`, one
child is left and the pruned tree has one chain. -/
theorem verify_true_iff_chains_witness :
    (TrustResolver.new demoAnchors "e" []).Resolve demoEnv 3 ()
        = some ({ TrustAnchors := demoAnchors, StartingEntity := "e", Types := [],
                  trustTree := .mk (some eCfg) none (some [trustTree.zero, intermediateNode]) },
                ())
    ∧ (trustTree.mk (some eCfg) none (some [trustTree.zero, intermediateNode])).Subordinate = none
    ∧ ∃ b t2, verifySignatures demoEnv.Verify demoAnchors
          (.mk (some eCfg) none (some [trustTree.zero, intermediateNode])) = some (b, t2)
      ∧ (b = true ↔ chains t2 ≠ [])
      ∧ (∀ c ∈ t2.Authorities.getD [], chains c ≠ [])
      ∧ (t2.Authorities.getD [] = [] → chains t2 = []) :=
  ⟨rfl, verify_true_iff_chains demoEnv demoAnchors "e" [] 3 () ()
    { TrustAnchors := demoAnchors, StartingEntity := "e", Types := [],
      trustTree := .mk (some eCfg) none (some [trustTree.zero, intermediateNode]) } rfl⟩

/-! ## The slots `resolve` fills -/

/-- The loop of `resolve`, started at index `i` on the slots `l`, keeps the number of slots,
leaves every slot outside the range of its hints as it was, and leaves in the slot of a hint what
was there or the child built for that hint. -/
theorem resolveLoop_slots {σ : Type} (E : Env σ)
    (recurse : trustTree → σ → Option (trustTree × σ)) (ent : EntityStatement)
    (hints : List String) :
    ∀ (i : Nat) (l : List trustTree) (auths1 : Option (List trustTree)) (s s1 : σ),
      resolveLoop E recurse ent hints i (some l) s = some (auths1, s1) →
      ∃ l1, auths1 = some l1 ∧ l1.length = l.length
        ∧ (∀ j, j < i → l1[j]? = l[j]?)
        ∧ (∀ j aID c, hints[j]? = some aID → l1[i + j]? = some c →
            l[i + j]? = some c
            ∨ ∃ s0 s3, resolveHint E recurse ent aID s0 = some (some c, s3)) := by
  induction hints with
  | nil =>
    intro i l auths1 s s1 h
    simp only [resolveLoop, Option.some.injEq, Prod.mk.injEq] at h
    obtain ⟨rfl, rfl⟩ := h
    exact ⟨l, rfl, rfl, fun _ _ => rfl, fun j aID c hj => by simp at hj⟩
  | cons aID rest ih =>
    intro i l auths1 s s1 h
    rw [resolveLoop] at h
    split at h
    · simp at h
    · obtain ⟨l1, rfl, hlen, hlow, hslot⟩ := ih (i + 1) l auths1 _ s1 h
      refine ⟨l1, rfl, hlen, fun j hj => hlow j (by omega), ?_⟩
      intro j bID c hj hc
      cases j with
      | zero =>
        left
        simp only [Nat.add_zero] at hc ⊢
        rw [← hlow i (by omega)]
        exact hc
      | succ k =>
        simp only [List.getElem?_cons_succ] at hj
        have hidx : i + (k + 1) = i + 1 + k := by omega
        rw [hidx] at hc ⊢
        exact hslot k bID c hj hc
    · rename_i tt s2 hhint
      simp only [Option.map_some'] at h
      obtain ⟨l1, rfl, hlen, hlow, hslot⟩ := ih (i + 1) (l.set i tt) auths1 _ s1 h
      refine ⟨l1, rfl, by simpa using hlen, ?_, ?_⟩
      · intro j hj
        rw [hlow j (by omega), List.getElem?_set_ne (by omega)]
      · intro j bID c hj hc
        cases j with
        | zero =>
          simp only [List.getElem?_cons_zero, Option.some.injEq] at hj
          subst hj
          have h1 := hlow i (by omega)
          simp only [Nat.add_zero] at hc
          rw [hc] at h1
          by_cases hi : i < l.length
          · rw [List.getElem?_set_self hi] at h1
            simp only [Option.some.injEq] at h1
            subst h1
            exact Or.inr ⟨_, _, hhint⟩
          · rw [List.getElem?_eq_none (by simpa using hi)] at h1
            cases h1
        | succ k =>
          simp only [List.getElem?_cons_succ] at hj
          have hidx : i + (k + 1) = i + 1 + k := by omega
          rw [hidx] at hc ⊢
          rcases hslot k bID c hj hc with hold | hnew
          · left
            rw [← hold, List.getElem?_set_ne (by omega)]
          · exact Or.inr hnew

/-- C18, as amended: for every non-anchor node `t` with a present entity that has no authorities
before the call or whose entity lists at least one hint, after `resolve(t, anchors)` has returned
the node has its entity and subordinate as before, `t.authorities` has as many slots as the entity
has hints, and the slot of each hint is either empty or a child whose entity has the hint as
issuer and subject, was time-valid when checked and has a non-empty fetch endpoint, and whose
subordinate has the hint as issuer, the issuer of `t.entity` as subject and was time-valid when
checked. -/
theorem resolve_slots {σ : Type} (E : Env σ) (anchors : List TrustAnchor) (fuel : Nat)
    (e : EntityStatement) (sub : Option EntityStatement) (auths : Option (List trustTree))
    (s s1 : σ) (t1 : trustTree)
    (hna : SliceContains e.Issuer (EntityIDs anchors) = false)
    (hfresh : auths = none ∨ e.AuthorityHints ≠ [])
    (h : resolve E anchors fuel (.mk (some e) sub auths) s = some (t1, s1)) :
    t1.Entity = some e ∧ t1.Subordinate = sub
    ∧ (t1.Authorities.getD []).length = e.AuthorityHints.length
    ∧ ∀ (i : Nat) (aID : String) (c : trustTree), e.AuthorityHints[i]? = some aID → (t1.Authorities.getD [])[i]? = some c →
        c = trustTree.zero
        ∨ ∃ a sb cauths md fe sa ss,
            c = .mk (some a) (some sb) cauths
            ∧ a.Issuer = aID ∧ a.Subject = aID ∧ a.TimeValid (E.now sa) = true
            ∧ a.Metadata = some md ∧ md.FederationEntity = some fe
            ∧ fe.FederationFetchEndpoint ≠ ""
            ∧ sb.Issuer = aID ∧ sb.Subject = e.Issuer ∧ sb.TimeValid (E.now ss) = true := by
  cases fuel with
  | zero => simp [resolve] at h
  | succ n =>
    rw [resolve] at h
    simp only [hna, Bool.false_eq_true, if_false] at h
    split at h
    · simp at h
    · rename_i auths1 s2 hloop
      simp only [Option.some.injEq, Prod.mk.injEq] at h
      obtain ⟨rfl, rfl⟩ := h
      refine ⟨rfl, rfl, ?_⟩
      by_cases hh : e.AuthorityHints = []
      · have hnone : auths = none := hfresh.resolve_right (fun hne => hne hh)
        subst hnone
        simp only [hh, List.length_nil, gt_iff_lt, Nat.lt_irrefl, if_false, resolveLoop,
          Option.some.injEq, Prod.mk.injEq] at hloop
        obtain ⟨rfl, _⟩ := hloop
        simp [trustTree.Authorities, hh]
      · have hpos : e.AuthorityHints.length > 0 := List.length_pos.mpr hh
        simp only [hpos, if_true] at hloop
        obtain ⟨l1, rfl, hlen, _, hslot⟩ := resolveLoop_slots E (resolve E anchors n) e
          e.AuthorityHints 0 _ auths1 s _ hloop
        simp only [trustTree.Authorities, Option.getD_some]
        refine ⟨by simpa using hlen, ?_⟩
        intro i aID c hi hc
        rcases hslot i aID c hi (by simpa using hc) with hold | ⟨s0, s3, hnew⟩
        · left
          simp only [Nat.zero_add] at hold
          have hmem : c ∈ List.replicate e.AuthorityHints.length trustTree.zero :=
            List.getElem?_mem hold
          exact List.eq_of_mem_replicate hmem
        · right
          obtain ⟨a, sb, sa, ss, md, fe, _, hi1, hi2, htv, hmd, hfe, hep, _, hs1, hs2, hstv,
            hrec⟩ := resolveHint_some E _ e aID s0 s3 c hnew
          obtain ⟨cauths, rfl, _, _⟩ := resolve_shape E anchors (fun _ => True) (fun _ => True)
            (Accepts.trivial E) n a (some sb) ss s3 c hrec
          exact ⟨a, sb, cauths, md, fe, sa, ss, rfl, hi1, hi2, htv, hmd, hfe, hep, hs1, hs2,
            hstv⟩

/-- C18, as amended, on the root of the demonstration federation for `e`, whose hints are `bad`
and `i`: the first slot is empty, the second holds the child for `i`. -/
theorem resolve_slots_witness :
    SliceContains eCfg.Issuer (EntityIDs demoAnchors) = false
    ∧ ((none : Option (List trustTree)) = none ∨ eCfg.AuthorityHints ≠ [])
    ∧ resolve demoEnv demoAnchors 3 (.mk (some eCfg) none none) ()
        = some (.mk (some eCfg) none (some [trustTree.zero, intermediateNode]), ())
    ∧ (trustTree.mk (some eCfg) none (some [trustTree.zero, intermediateNode])).Entity = some eCfg
    ∧ (trustTree.mk (some eCfg) none (some [trustTree.zero, intermediateNode])).Subordinate = none
    ∧ (((trustTree.mk (some eCfg) none
          (some [trustTree.zero, intermediateNode])).Authorities).getD []).length
        = eCfg.AuthorityHints.length
    ∧ ∀ (i : Nat) (aID : String) (c : trustTree), eCfg.AuthorityHints[i]? = some aID →
        (((trustTree.mk (some eCfg) none
          (some [trustTree.zero, intermediateNode])).Authorities).getD [])[i]? = some c →
        c = trustTree.zero
        ∨ ∃ a sb cauths md fe sa ss,
            c = .mk (some a) (some sb) cauths
            ∧ a.Issuer = aID ∧ a.Subject = aID ∧ a.TimeValid (demoEnv.now sa) = true
            ∧ a.Metadata = some md ∧ md.FederationEntity = some fe
            ∧ fe.FederationFetchEndpoint ≠ ""
            ∧ sb.Issuer = aID ∧ sb.Subject = eCfg.Issuer
            ∧ sb.TimeValid (demoEnv.now ss) = true :=
  ⟨by decide, Or.inl rfl, rfl,
    resolve_slots demoEnv demoAnchors 3 eCfg none none () ()
      (.mk (some eCfg) none (some [trustTree.zero, intermediateNode])) (by decide) (Or.inl rfl)
      rfl⟩

/-- C18, as stated, fails on a node that has authorities before the call and whose entity lists no
hint (the root of a resolver that is used again after the configuration lost its hints): `resolve`
makes a new list only for a positive number of hints, so the old slot stays. -/
theorem resolve_keeps_stale_slots :
    SliceContains taCfg.Issuer (EntityIDs []) = false
    ∧ taCfg.AuthorityHints.length = 0
    ∧ resolve demoEnv [] 1 (.mk (some taCfg) none (some [anchorNode])) ()
        = some (.mk (some taCfg) none (some [anchorNode]), ())
    ∧ (((trustTree.mk (some taCfg) none (some [anchorNode])).Authorities).getD []).length = 1 :=
  ⟨by decide, by decide, rfl, rfl⟩

/-! ## Descent paths -/

/-- Below a node that starts without authorities, `resolve` builds children for hints of the
node's entity only, each holding a configuration obtained for its own issuer. -/
theorem resolve_descends {σ : Type} (E : Env σ) (anchors : List TrustAnchor) (fuel : Nat) :
    ∀ (e : EntityStatement) (sub : Option EntityStatement) (s s1 : σ) (t1 : trustTree),
      resolve E anchors fuel (.mk (some e) sub none) s = some (t1, s1) →
      ∀ l, t1.Authorities = some l → ∀ c ∈ l, Descends E e c := by
  induction fuel with
  | zero =>
    intro e sub s s1 t1 h
    simp [resolve] at h
  | succ n ih =>
    intro e sub s s1 t1 h l hl c hc
    rw [resolve] at h
    split at h
    · simp only [Option.some.injEq, Prod.mk.injEq] at h
      obtain ⟨rfl, rfl⟩ := h
      cases hl
    · split at h
      · simp at h
      · rename_i auths1 s2 hloop
        simp only [Option.some.injEq, Prod.mk.injEq] at h
        obtain ⟨rfl, rfl⟩ := h
        simp only [trustTree.Authorities] at hl
        subst hl
        by_cases hh : e.AuthorityHints = []
        · simp [hh, resolveLoop] at hloop
        · have hpos : e.AuthorityHints.length > 0 := List.length_pos.mpr hh
          simp only [hpos, if_true] at hloop
          obtain ⟨l1, hl1, hlen, _, hslot⟩ := resolveLoop_slots E (resolve E anchors n) e
            e.AuthorityHints 0 _ _ s _ hloop
          simp only [Option.some.injEq] at hl1
          subst hl1
          obtain ⟨k, hk⟩ := List.mem_iff_getElem?.mp hc
          have hklt : k < e.AuthorityHints.length := by
            have h1 : k < l.length := by
              by_contra hge
              rw [List.getElem?_eq_none (by omega)] at hk
              cases hk
            simpa [hlen] using h1
          rcases hslot k (e.AuthorityHints[k]) c (List.getElem?_eq_getElem hklt)
              (by simpa using hk) with hold | ⟨s0, s3, hnew⟩
          · simp only [Nat.zero_add] at hold
            rw [List.eq_of_mem_replicate (List.getElem?_mem hold)]
            exact Descends.slot e
          · obtain ⟨a, sb, sa, ss, md, fe, hget, hi1, _, _, _, _, _, _, _, _, _, hrec⟩ :=
              resolveHint_some E _ e _ s0 s3 c hnew
            obtain ⟨cauths, rfl, _, _⟩ := resolve_shape E anchors (fun _ => True)
              (fun _ => True) (Accepts.trivial E) n a (some sb) ss s3 c hrec
            refine Descends.node e a (some sb) cauths ?_ ⟨s0, sa, by rw [hi1]; exact hget⟩ ?_
            · rw [hi1]
              exact List.getElem_mem hklt
            · intro l2 hl2 c2 hc2
              exact ih a (some sb) ss s3 _ hrec l2 (by simp [trustTree.Authorities, hl2]) c2 hc2

/-- A path of the hint graph that starts at `pid` and enters the paths of a list of nodes. -/
theorem nodePathsIn_mem (l : List trustTree) (p : List String) :
    p ∈ nodePathsIn l ↔ ∃ c ∈ l, p ∈ nodePaths c := by
  induction l with
  | nil => simp [nodePathsIn]
  | cons c rest ih => simp [nodePathsIn, ih]

/-- The identifiers along a path below a node form a path of the hint graph, when the node's
entity is served for `pid`. -/
theorem Descends.chain {σ : Type} {E : Env σ} {pe : EntityStatement} {c : trustTree}
    (h : Descends E pe c) :
    ∀ pid, (∀ x ∈ pe.AuthorityHints, hintEdge E pid x) →
      ∀ p ∈ nodePaths c, List.Chain (hintEdge E) pid p := by
  induction h with
  | slot pe =>
    intro pid _ p hp
    simp [trustTree.zero, nodePaths] at hp
  | node pe a sub auths hmem hserve _ ih =>
    intro pid hpid p hp
    obtain ⟨s, s1, hget⟩ := hserve
    have hedge : ∀ x ∈ a.AuthorityHints, hintEdge E a.Issuer x :=
      fun x hx => ⟨s, a, s1, hget, hx⟩
    cases auths with
    | none =>
      simp only [nodePaths, List.mem_singleton] at hp
      subst hp
      exact List.Chain.cons (hpid _ hmem) List.Chain.nil
    | some l =>
      simp only [nodePaths, List.mem_cons, List.mem_map] at hp
      rcases hp with rfl | ⟨q, hq, rfl⟩
      · exact List.Chain.cons (hpid _ hmem) List.Chain.nil
      · obtain ⟨c2, hc2, hq2⟩ := (nodePathsIn_mem l q).mp hq
        exact List.Chain.cons (hpid _ hmem) (ih l rfl c2 hc2 a.Issuer hedge q hq2)

/-- In a graph without cycles the vertices along a path are pairwise distinct. -/
theorem chain_nodup {α : Type} {R : α → α → Prop}
    (hacyc : ∀ x, ¬ Relation.TransGen R x x) (a : α) (l : List α) (h : List.Chain R a l) :
    (a :: l).Nodup := by
  have h1 : List.Chain (Relation.TransGen R) a l := h.imp (fun _ _ hab => Relation.TransGen.single hab)
  have h2 : List.Pairwise (Relation.TransGen R) (a :: l) := List.chain_iff_pairwise.mp h1
  have h3 : List.Pairwise (fun x y => x ≠ y) (a :: l) :=
    h2.imp (fun {x y} (hxy : Relation.TransGen R x y) (heq : x = y) => hacyc y (heq ▸ hxy))
  exact h3

/-- The pruning by `Types` leaves the authority hints and the issuer of a statement as they are. -/
theorem applyTypes_fields {σ : Type} (E : Env σ) (types : List String) (st : EntityStatement) :
    (applyTypes E types st).AuthorityHints = st.AuthorityHints
    ∧ (applyTypes E types st).Issuer = st.Issuer := by
  unfold applyTypes
  split <;> exact ⟨rfl, rfl⟩

/-- A graph whose edges strictly lower a rank has no cycle. -/
theorem acyclic_of_rank {α : Type} {R : α → α → Prop} (rank : α → Nat)
    (hrank : ∀ a b, R a b → rank b < rank a) : ∀ x, ¬ Relation.TransGen R x x := by
  have hlt : ∀ a b, Relation.TransGen R a b → rank b < rank a := by
    intro a b hab
    induction hab with
    | single h => exact hrank _ _ h
    | tail _ h ih => exact Nat.lt_trans (hrank _ _ h) ih
  intro x hx
  exact Nat.lt_irrefl _ (hlt x x hx)

/-- The edges of the hint graph of the demonstration federation. -/
theorem demo_hintEdge (id h : String) (hedge : hintEdge demoEnv id h) :
    ((id = "e" ∨ id = "alias") ∧ (h = "bad" ∨ h = "i"))
    ∨ ((id = "i" ∨ id = "old") ∧ h = "ta") := by
  obtain ⟨s, a, s1, hget, hh⟩ := hedge
  simp only [GetEntityConfiguration, getEntityStatementOrConfiguration, entityStmtCacheGet,
    obtainAndSetEntityStatementOrConfiguration, entityStmtCacheSet, demoEnv] at hget
  by_cases h1 : id = "e"
  · subst h1
    simp [demoStatement] at hget
    rw [← hget] at hh
    simp [eCfg] at hh
    exact Or.inl ⟨Or.inl rfl, hh⟩
  · by_cases h2 : id = "alias"
    · subst h2
      simp [demoStatement] at hget
      rw [← hget] at hh
      simp [eCfg] at hh
      exact Or.inl ⟨Or.inr rfl, hh⟩
    · by_cases h3 : id = "i"
      · subst h3
        simp [demoStatement] at hget
        rw [← hget] at hh
        simp [iCfg] at hh
        exact Or.inr ⟨Or.inl rfl, hh⟩
      · by_cases h4 : id = "ta"
        · subst h4
          simp [demoStatement] at hget
          rw [← hget] at hh
          simp [taCfg] at hh
        · by_cases h5 : id = "old"
          · subst h5
            simp [demoStatement] at hget
            rw [← hget] at hh
            simp [oldCfg] at hh
            exact Or.inr ⟨Or.inr rfl, hh⟩
          · simp [h1, h2, h3, h4, h5] at hget

/-- The hint graph of the demonstration federation has no cycle. -/
theorem demo_acyclic : ∀ id, ¬ Relation.TransGen (hintEdge demoEnv) id id := by
  apply acyclic_of_rank demoRank
  intro a b hab
  rcases demo_hintEdge a b hab with ⟨ha | ha, hb | hb⟩ | ⟨ha | ha, hb⟩ <;> subst ha <;> subst hb <;>
    decide

/-- C11, as amended: `resolve` has no check of the descent path; when the authority-hint graph the
obtainer serves has no cycle, no root-to-node path of the tree that `Resolve` builds in a fresh
resolver contains two nodes of the same identifier, the identifier of the root being the starting
entity and that of every other node the issuer of its entity (and with the issuer of the root
entity, when that is the starting entity). -/
theorem paths_distinct_of_acyclic {σ : Type} (E : Env σ)
    (hacyc : ∀ id, ¬ Relation.TransGen (hintEdge E) id id) (anchors : List TrustAnchor)
    (starting : String) (types : List String) (fuel : Nat) (s s1 : σ) (r1 : TrustResolver)
    (h : (TrustResolver.new anchors starting types).Resolve E fuel s = some (r1, s1)) :
    (∀ p ∈ nodePathsIn (r1.trustTree.Authorities.getD []), (starting :: p).Nodup)
    ∧ (∀ e0, r1.trustTree.Entity = some e0 → e0.Issuer = starting →
        ∀ p ∈ nodePaths r1.trustTree, p.Nodup) := by
  have hmain : ∀ p ∈ nodePathsIn (r1.trustTree.Authorities.getD []), (starting :: p).Nodup := by
    unfold TrustResolver.Resolve at h
    simp only [TrustResolver.new] at h
    split at h
    · simp only [Option.some.injEq, Prod.mk.injEq] at h
      obtain ⟨rfl, rfl⟩ := h
      intro p hp
      simp [trustTree.zero, trustTree.Authorities, nodePathsIn] at hp
    · rename_i fetched s0 hget
      split at h
      · simp at h
      · rename_i t s2 hres
        simp only [Option.some.injEq, Prod.mk.injEq] at h
        obtain ⟨rfl, rfl⟩ := h
        have hres1 : resolve E anchors fuel (.mk (some (applyTypes E types fetched)) none none) s0
            = some (t, s2) := hres
        have hdesc := resolve_descends E anchors fuel _ none s0 s2 t hres1
        have hedge : ∀ x ∈ (applyTypes E types fetched).AuthorityHints, hintEdge E starting x := by
          intro x hx
          rw [(applyTypes_fields E types fetched).1] at hx
          exact ⟨s, fetched, s0, hget, hx⟩
        intro p hp
        cases hauth : t.Authorities with
        | none =>
          simp only [hauth, Option.getD_none, nodePathsIn, List.not_mem_nil] at hp
        | some l =>
          simp only [hauth, Option.getD_some] at hp
          obtain ⟨c, hc, hpc⟩ := (nodePathsIn_mem l p).mp hp
          exact chain_nodup hacyc starting p ((hdesc l hauth c hc).chain starting hedge p hpc)
  refine ⟨hmain, ?_⟩
  intro e0 he0 hiss p hp
  rcases hr : r1.trustTree with ⟨ent, sub, auths⟩
  rw [hr] at hmain he0 hp
  simp only [trustTree.Entity] at he0
  subst he0
  cases auths with
  | none =>
    simp only [nodePaths, List.mem_singleton] at hp
    subst hp
    simp
  | some l =>
    simp only [nodePaths, List.mem_cons, List.mem_map] at hp
    rcases hp with rfl | ⟨q, hq, rfl⟩
    · simp
    · rw [hiss]
      exact hmain q (by simpa [trustTree.Authorities] using hq)

/-- C11, as amended, on the demonstration federation, whose hint graph has no cycle. -/
theorem paths_distinct_of_acyclic_witness :
    (∀ id, ¬ Relation.TransGen (hintEdge demoEnv) id id)
    ∧ (TrustResolver.new demoAnchors "e" []).Resolve demoEnv 3 ()
        = some ({ TrustAnchors := demoAnchors, StartingEntity := "e", Types := [],
                  trustTree := .mk (some eCfg) none (some [trustTree.zero, intermediateNode]) },
                ())
    ∧ (∀ p ∈ nodePathsIn
          ((trustTree.mk (some eCfg) none
            (some [trustTree.zero, intermediateNode])).Authorities.getD []),
        ("e" :: p).Nodup)
    ∧ (∀ e0, (trustTree.mk (some eCfg) none (some [trustTree.zero, intermediateNode])).Entity
          = some e0 → e0.Issuer = "e" →
        ∀ p ∈ nodePaths (.mk (some eCfg) none (some [trustTree.zero, intermediateNode])),
          p.Nodup) :=
  ⟨demo_acyclic, rfl,
    paths_distinct_of_acyclic demoEnv demo_acyclic demoAnchors "e" [] 3 () ()
      { TrustAnchors := demoAnchors, StartingEntity := "e", Types := [],
        trustTree := .mk (some eCfg) none (some [trustTree.zero, intermediateNode]) } rfl⟩

/-- C11, as stated, fails: `resolve` does not skip a hint whose identifier is on the descent path.
The entity `x` first serves a configuration that names `x` itself as authority and afterwards one
without hints; `Resolve` builds a root for `x` with a child for `x`, so the path from the root to
that child holds the identifier `x` twice. -/
theorem resolve_repeats_identifier :
    (TrustResolver.new [] "x" []).Resolve loopEnv 2 0
        = some ({ TrustAnchors := [], StartingEntity := "x", Types := [],
                  trustTree := .mk (some xSelfCfg) none
                    (some [.mk (some xLeafCfg) (some xAboutX) none]) }, 2)
    ∧ nodePaths (.mk (some xSelfCfg) none (some [.mk (some xLeafCfg) (some xAboutX) none]))
        = [["x"], ["x", "x"]]
    ∧ ¬ (["x", "x"] : List String).Nodup :=
  ⟨rfl, rfl, by decide⟩

/-! ## Termination of `resolve` -/

/-- The loop body of `resolve` is its part before the recursive call followed by that call. -/
theorem resolveHint_eq {σ : Type} (E : Env σ)
    (recurse : trustTree → σ → Option (trustTree × σ)) (ent : EntityStatement) (aID : String)
    (s : σ) :
    resolveHint E recurse ent aID s
      = match hintChild E ent aID s with
        | .inl s1 => some (none, s1)
        | .inr (a, sb, s2) =>
          match recurse (.mk (some a) (some sb) none) s2 with
          | none => none
          | some (tt, s3) => some (some tt, s3) := by
  unfold resolveHint hintChild
  repeat' split
  all_goals first | rfl | simp_all

/-- A child is built only from a configuration that was obtained for the hint. -/
theorem hintChild_served {σ : Type} (E : Env σ) (ent : EntityStatement) (aID : String) (s s2 : σ)
    (a sb : EntityStatement) (h : hintChild E ent aID s = .inr (a, sb, s2)) :
    ∃ s1, GetEntityConfiguration E aID s = (.ok a, s1) := by
  have h1 : resolveHint E (fun t s0 => some (t, s0)) ent aID s
      = some (some (.mk (some a) (some sb) none), s2) := by
    rw [resolveHint_eq, h]
  obtain ⟨a1, sb1, s1, s3, md, fe, hget, _, _, _, _, _, _, _, _, _, _, hrec⟩ :=
    resolveHint_some E _ ent aID s s2 _ h1
  simp only [Option.some.injEq, Prod.mk.injEq, trustTree.mk.injEq] at hrec
  obtain ⟨⟨ha, _, _⟩, _⟩ := hrec
  exact ⟨s1, by rw [← ha]; exact hget⟩

/-- The loop of `resolve` returns when every pass through its body does. -/
theorem resolveLoop_total {σ : Type} (E : Env σ)
    (recurse : trustTree → σ → Option (trustTree × σ)) (ent : EntityStatement)
    (hints : List String)
    (hbody : ∀ aID ∈ hints, ∀ s, ∃ r, resolveHint E recurse ent aID s = some r) :
    ∀ (i : Nat) (auths : Option (List trustTree)) (s : σ),
      ∃ r, resolveLoop E recurse ent hints i auths s = some r := by
  induction hints with
  | nil =>
    intro i auths s
    exact ⟨_, rfl⟩
  | cons aID rest ih =>
    intro i auths s
    have hrest := ih (fun b hb => hbody b (List.mem_cons_of_mem _ hb))
    obtain ⟨⟨c, s1⟩, hr⟩ := hbody aID (List.mem_cons_self _ _) s
    rw [resolveLoop, hr]
    cases c with
    | none => exact hrest _ _ _
    | some tt => exact hrest _ _ _

/-- The loop of `resolve` returns the same with a recursive call that returns more often. -/
theorem resolveLoop_mono {σ : Type} (E : Env σ)
    (rec1 rec2 : trustTree → σ → Option (trustTree × σ)) (ent : EntityStatement)
    (hrec : ∀ t s r, rec1 t s = some r → rec2 t s = some r) (hints : List String) :
    ∀ (i : Nat) (auths : Option (List trustTree)) (s : σ) (r : Option (List trustTree) × σ),
      resolveLoop E rec1 ent hints i auths s = some r →
      resolveLoop E rec2 ent hints i auths s = some r := by
  have hbody : ∀ aID s r, resolveHint E rec1 ent aID s = some r →
      resolveHint E rec2 ent aID s = some r := by
    intro aID s r h
    rw [resolveHint_eq] at h ⊢
    cases hc : hintChild E ent aID s with
    | inl s1 => rw [hc] at h; exact h
    | inr x =>
      obtain ⟨a, sb, s2⟩ := x
      rw [hc] at h
      simp only at h ⊢
      cases h1 : rec1 (.mk (some a) (some sb) none) s2 with
      | none => simp [h1] at h
      | some y =>
        rw [hrec _ _ _ h1]
        rw [h1] at h
        exact h
  induction hints with
  | nil => intro i auths s r h; exact h
  | cons aID rest ih =>
    intro i auths s r h
    rw [resolveLoop] at h ⊢
    cases h1 : resolveHint E rec1 ent aID s with
    | none => simp [h1] at h
    | some y =>
      rw [hbody _ _ _ h1]
      rw [h1] at h
      obtain ⟨c, s1⟩ := y
      cases c with
      | none => exact ih _ _ _ _ h
      | some tt => exact ih _ _ _ _ h

/-- A result of `resolve` stays the result with a larger recursion budget. -/
theorem resolve_mono {σ : Type} (E : Env σ) (anchors : List TrustAnchor) (n : Nat) :
    ∀ (t : trustTree) (s : σ) (r : trustTree × σ),
      resolve E anchors n t s = some r → resolve E anchors (n + 1) t s = some r := by
  induction n with
  | zero =>
    intro t s r h
    simp [resolve] at h
  | succ m ih =>
    intro t s r h
    obtain ⟨ent, sub, auths⟩ := t
    cases ent with
    | none =>
      rw [resolve] at h
      rw [resolve]
      exact h
    | some e =>
      rw [resolve] at h
      rw [resolve]
      split at h
      · rename_i hanch
        simp only [hanch, if_true]
        exact h
      · rename_i hanch
        simp only [hanch, if_false]
        split at h
        · simp at h
        · rename_i auths1 s1 hloop
          rw [resolveLoop_mono E _ _ e ih _ _ _ _ _ hloop]
          exact h

/-- A result of `resolve` is the result with every larger recursion budget. -/
theorem resolve_mono_le {σ : Type} (E : Env σ) (anchors : List TrustAnchor) (n m : Nat)
    (hnm : n ≤ m) (t : trustTree) (s : σ) (r : trustTree × σ)
    (h : resolve E anchors n t s = some r) : resolve E anchors m t s = some r := by
  induction hnm with
  | refl => exact h
  | step _ ih => exact resolve_mono E anchors _ t s r ih

/-- With a rank that every edge of the hint graph lowers, `resolve` returns on a node whose hints
have a rank below the recursion budget. -/
theorem resolve_total_of_rank {σ : Type} (E : Env σ) (anchors : List TrustAnchor)
    (rank : String → Nat) (hrank : ∀ a b, hintEdge E a b → rank b < rank a) (n : Nat) :
    ∀ (e : EntityStatement) (sub : Option EntityStatement) (auths : Option (List trustTree))
      (s : σ), (∀ x ∈ e.AuthorityHints, rank x < n) →
      ∃ r, resolve E anchors (n + 1) (.mk (some e) sub auths) s = some r := by
  induction n with
  | zero =>
    intro e sub auths s hlt
    have hnil : e.AuthorityHints = [] := by
      cases hh : e.AuthorityHints with
      | nil => rfl
      | cons x rest => exact absurd (hlt x (by simp [hh])) (Nat.not_lt_zero _)
    rw [resolve]
    simp only [hnil, List.length_nil, gt_iff_lt, Nat.lt_irrefl, if_false, resolveLoop]
    split <;> exact ⟨_, rfl⟩
  | succ m ih =>
    intro e sub auths s hlt
    rw [resolve]
    split
    · exact ⟨_, rfl⟩
    · obtain ⟨⟨auths1, s1⟩, hloop⟩ := resolveLoop_total E (resolve E anchors (m + 1)) e
        e.AuthorityHints (fun aID haID s0 => by
          rw [resolveHint_eq]
          cases hc : hintChild E e aID s0 with
          | inl s2 => exact ⟨_, rfl⟩
          | inr x =>
            obtain ⟨a, sb, s2⟩ := x
            obtain ⟨s3, hget⟩ := hintChild_served E e aID s0 s2 a sb hc
            obtain ⟨⟨tt, s4⟩, hr⟩ := ih a (some sb) none s2 (fun y hy => by
              have h1 : rank y < rank aID := hrank aID y ⟨s0, a, s3, hget, hy⟩
              have h2 := hlt aID haID
              omega)
            simp only [hr]
            exact ⟨_, rfl⟩) 0
        (if e.AuthorityHints.length > 0 then
          some (List.replicate e.AuthorityHints.length trustTree.zero) else auths) s
      rw [hloop]
      exact ⟨_, rfl⟩

/-- A graph with finitely many targets of edges and no cycle has a rank that every edge lowers:
the number of targets that can be reached. -/
theorem exists_rank_of_finite_acyclic {α : Type} {R : α → α → Prop} (V : List α)
    (hfin : ∀ a b, R a b → b ∈ V) (hacyc : ∀ x, ¬ Relation.TransGen R x x) :
    ∃ rank : α → Nat, ∀ a b, R a b → rank b < rank a := by
  classical
  refine ⟨fun a => (V.toFinset.filter (fun v => Relation.TransGen R a v)).card, ?_⟩
  intro a b hab
  apply Finset.card_lt_card
  rw [Finset.ssubset_iff_of_subset]
  · refine ⟨b, ?_, ?_⟩
    · simp only [Finset.mem_filter, List.mem_toFinset]
      exact ⟨hfin a b hab, Relation.TransGen.single hab⟩
    · simp only [Finset.mem_filter, List.mem_toFinset, not_and]
      exact fun _ => hacyc b
  · intro v hv
    simp only [Finset.mem_filter, List.mem_toFinset] at hv ⊢
    exact ⟨hv.1, Relation.TransGen.head hab hv.2⟩

/-- The targets of the edges of the hint graph of the demonstration federation. -/
theorem demo_finite : ∀ id h, hintEdge demoEnv id h → h ∈ ["bad", "i", "ta"] := by
  intro id h hedge
  rcases demo_hintEdge id h hedge with ⟨_, hb | hb⟩ | ⟨_, hb⟩ <;> subst hb <;> decide

/-- C12: when the authority-hint graph the obtainer serves is finite (all hints lie in a finite
list `V`) and has no cycle, `Resolve` returns for every starting entity and anchor list: from some
recursion budget on it returns one and the same result; and on a node whose entity issuer is an
anchor identifier `resolve` returns at once, with the node and the world as they were, so that
nothing is fetched below it. -/
theorem resolve_terminates {σ : Type} (E : Env σ) (V : List String)
    (hfin : ∀ id h, hintEdge E id h → h ∈ V)
    (hacyc : ∀ id, ¬ Relation.TransGen (hintEdge E) id id)
    (anchors : List TrustAnchor) (starting : String) (types : List String) (s : σ) :
    (∃ N r1 s1, ∀ n, N ≤ n →
        (TrustResolver.new anchors starting types).Resolve E n s = some (r1, s1))
    ∧ (∀ n e sub auths s0, SliceContains e.Issuer (EntityIDs anchors) = true →
        resolve E anchors (n + 1) (.mk (some e) sub auths) s0
          = some (.mk (some e) sub auths, s0)) := by
  obtain ⟨rank, hrank⟩ := exists_rank_of_finite_acyclic V hfin hacyc
  constructor
  · cases hget : GetEntityConfiguration E starting s with
    | mk res s0 =>
      cases res with
      | error err =>
        refine ⟨0, TrustResolver.new anchors starting types, s0, fun n _ => ?_⟩
        unfold TrustResolver.Resolve
        simp only [TrustResolver.new] at hget ⊢
        rw [hget]
      | ok fetched =>
        obtain ⟨⟨t, s2⟩, ht⟩ := resolve_total_of_rank E anchors rank hrank (rank starting)
          (applyTypes E types fetched) none none s0 (fun x hx => by
            rw [(applyTypes_fields E types fetched).1] at hx
            exact hrank starting x ⟨s, fetched, s0, hget, hx⟩)
        refine ⟨rank starting + 1,
          { TrustAnchors := anchors, StartingEntity := starting, Types := types, trustTree := t },
          s2, fun n hn => ?_⟩
        have hn1 := resolve_mono_le E anchors _ n hn _ _ _ ht
        unfold TrustResolver.Resolve
        simp only [TrustResolver.new] at hget ⊢
        rw [hget]
        simp only [trustTree.zero, trustTree.Subordinate, trustTree.Authorities]
        rw [hn1]
  · intro n e sub auths s0 hanch
    rw [resolve]
    simp [hanch]

/-- C12 on the demonstration federation: its hints lie among `bad`, `i` and `ta`, and its hint
graph has no cycle. -/
theorem resolve_terminates_witness :
    (∀ id h, hintEdge demoEnv id h → h ∈ ["bad", "i", "ta"])
    ∧ (∀ id, ¬ Relation.TransGen (hintEdge demoEnv) id id)
    ∧ (∃ N r1 s1, ∀ n, N ≤ n →
        (TrustResolver.new demoAnchors "e" []).Resolve demoEnv n () = some (r1, s1))
    ∧ (∀ n e sub auths s0, SliceContains e.Issuer (EntityIDs demoAnchors) = true →
        resolve demoEnv demoAnchors (n + 1) (.mk (some e) sub auths) s0
          = some (.mk (some e) sub auths, s0)) :=
  ⟨demo_finite, demo_acyclic,
    resolve_terminates demoEnv ["bad", "i", "ta"] demo_finite demo_acyclic demoAnchors "e" [] ()⟩

/-- Without the precondition `resolve` need not return: when every configuration served for `x`
names `x` itself as authority, no recursion budget is enough. -/
theorem resolve_cycle_never_returns (fuel : Nat) :
    ∀ (sub : Option EntityStatement) (auths : Option (List trustTree)) (s : Nat),
      resolve cycleEnv [] fuel (.mk (some xSelfCfg) sub auths) s = none := by
  induction fuel with
  | zero => intro sub auths s; rfl
  | succ n ih =>
    intro sub auths s
    have hchild : hintChild cycleEnv xSelfCfg "x" s = .inr (xSelfCfg, xAboutX, s + 1) := rfl
    have hhint : resolveHint cycleEnv (resolve cycleEnv [] n) xSelfCfg "x" s = none := by
      rw [resolveHint_eq, hchild]
      simp only [ih]
    rw [resolve]
    have hanch : SliceContains xSelfCfg.Issuer (EntityIDs []) = false := rfl
    have hhints : xSelfCfg.AuthorityHints = ["x"] := rfl
    simp only [hanch, hhints, resolveLoop, hhint, Bool.false_eq_true, if_false]

/-! ## A second run on the same resolver -/

/-- With stable collaborators the part of the loop body before the recursive call decides the same
in every state of the world: a `continue` in both, or a child with the same two statements. -/
theorem hintChild_indep {σ : Type} (E : Env σ) (hst : Stable E) (ent : EntityStatement)
    (aID : String) (s s0 : σ) :
    Sum.elim (fun _ => none) (fun x => some (x.1, x.2.1)) (hintChild E ent aID s)
      = Sum.elim (fun _ => (none : Option (EntityStatement × EntityStatement)))
          (fun x => some (x.1, x.2.1)) (hintChild E ent aID s0) := by
  obtain ⟨hcfg, hfetch, hnow⟩ := hst
  rcases hg : GetEntityConfiguration E aID s with ⟨r, s1⟩
  rcases hg0 : GetEntityConfiguration E aID s0 with ⟨r0, s2⟩
  have hr : r = r0 := by
    have h1 := hcfg aID s s0
    rw [hg, hg0] at h1
    exact h1
  subst hr
  unfold hintChild
  rw [hg, hg0]
  cases r with
  | error err => rfl
  | ok a =>
    simp only [hnow s1 s2]
    split
    · rfl
    · split
      · rfl
      · split
        · rfl
        · rename_i fe _
          split
          · rfl
          · rcases hf : FetchEntityStatement E fe.FederationFetchEndpoint ent.Issuer aID s1
              with ⟨q, s3⟩
            rcases hf0 : FetchEntityStatement E fe.FederationFetchEndpoint ent.Issuer aID s2
              with ⟨q0, s4⟩
            have hq : q = q0 := by
              have h1 := hfetch fe.FederationFetchEndpoint ent.Issuer aID s1 s2
              rw [hf, hf0] at h1
              exact h1
            subst hq
            cases q with
            | error err => rfl
            | ok sb =>
              simp only [hnow s3 s4]
              split <;> rfl

/-- With stable collaborators and a recursive call whose tree does not depend on the state of the
world, neither does what a pass through the loop body builds. -/
theorem resolveHint_indep {σ : Type} (E : Env σ) (hst : Stable E)
    (recurse : trustTree → σ → Option (trustTree × σ))
    (hrec : ∀ t s s0, (recurse t s).map Prod.fst = (recurse t s0).map Prod.fst)
    (ent : EntityStatement) (aID : String) (s s0 : σ) :
    (resolveHint E recurse ent aID s).map Prod.fst
      = (resolveHint E recurse ent aID s0).map Prod.fst := by
  have hc := hintChild_indep E hst ent aID s s0
  rw [resolveHint_eq, resolveHint_eq]
  cases h1 : hintChild E ent aID s with
  | inl s1 =>
    cases h2 : hintChild E ent aID s0 with
    | inl s2 => rfl
    | inr y => rw [h1, h2] at hc; simp at hc
  | inr x =>
    cases h2 : hintChild E ent aID s0 with
    | inl s2 => rw [h1, h2] at hc; simp at hc
    | inr y =>
      rw [h1, h2] at hc
      obtain ⟨a, sb, s1⟩ := x
      obtain ⟨a0, sb0, s2⟩ := y
      simp only [Sum.elim_inr, Option.some.injEq, Prod.mk.injEq] at hc
      obtain ⟨rfl, rfl⟩ := hc
      have h3 := hrec (.mk (some a) (some sb) none) s1 s2
      simp only
      cases h4 : recurse (.mk (some a) (some sb) none) s1 with
      | none =>
        cases h5 : recurse (.mk (some a) (some sb) none) s2 with
        | none => rfl
        | some v => rw [h4, h5] at h3; simp at h3
      | some u =>
        cases h5 : recurse (.mk (some a) (some sb) none) s2 with
        | none => rw [h4, h5] at h3; simp at h3
        | some v =>
          rw [h4, h5] at h3
          simp only [Option.map_some', Option.some.injEq] at h3
          obtain ⟨t1, s3⟩ := u
          obtain ⟨t2, s4⟩ := v
          simp only at h3
          subst h3
          rfl

/-- The slots the loop of `resolve` leaves do not depend on the state of the world it starts in,
under the same conditions. -/
theorem resolveLoop_indep {σ : Type} (E : Env σ) (hst : Stable E)
    (recurse : trustTree → σ → Option (trustTree × σ))
    (hrec : ∀ t s s0, (recurse t s).map Prod.fst = (recurse t s0).map Prod.fst)
    (ent : EntityStatement) (hints : List String) :
    ∀ (i : Nat) (auths : Option (List trustTree)) (s s0 : σ),
      (resolveLoop E recurse ent hints i auths s).map Prod.fst
        = (resolveLoop E recurse ent hints i auths s0).map Prod.fst := by
  induction hints with
  | nil => intro i auths s s0; rfl
  | cons aID rest ih =>
    intro i auths s s0
    have hh := resolveHint_indep E hst recurse hrec ent aID s s0
    rw [resolveLoop, resolveLoop]
    cases h1 : resolveHint E recurse ent aID s with
    | none =>
      cases h2 : resolveHint E recurse ent aID s0 with
      | none => rfl
      | some v => rw [h1, h2] at hh; simp at hh
    | some u =>
      cases h2 : resolveHint E recurse ent aID s0 with
      | none => rw [h1, h2] at hh; simp at hh
      | some v =>
        rw [h1, h2] at hh
        obtain ⟨c1, s1⟩ := u
        obtain ⟨c2, s2⟩ := v
        simp only [Option.map_some', Option.some.injEq] at hh
        subst hh
        cases c1 with
        | none => exact ih _ _ _ _
        | some tt => exact ih _ _ _ _

/-- With stable collaborators the tree `resolve` returns, and whether it returns, do not depend
on the state of the world it starts in. -/
theorem resolve_indep {σ : Type} (E : Env σ) (hst : Stable E) (anchors : List TrustAnchor)
    (fuel : Nat) :
    ∀ (t : trustTree) (s s0 : σ),
      (resolve E anchors fuel t s).map Prod.fst = (resolve E anchors fuel t s0).map Prod.fst := by
  induction fuel with
  | zero => intro t s s0; rfl
  | succ n ih =>
    intro t s s0
    obtain ⟨ent, sub, auths⟩ := t
    cases ent with
    | none => rfl
    | some e =>
      rw [resolve, resolve]
      split
      · rfl
      · have hl := resolveLoop_indep E hst (resolve E anchors n) ih e e.AuthorityHints 0
          (if e.AuthorityHints.length > 0 then
            some (List.replicate e.AuthorityHints.length trustTree.zero) else auths) s s0
        revert hl
        cases resolveLoop E (resolve E anchors n) e e.AuthorityHints 0
          (if e.AuthorityHints.length > 0 then
            some (List.replicate e.AuthorityHints.length trustTree.zero) else auths) s with
        | none =>
          cases resolveLoop E (resolve E anchors n) e e.AuthorityHints 0
            (if e.AuthorityHints.length > 0 then
              some (List.replicate e.AuthorityHints.length trustTree.zero) else auths) s0 with
          | none => intro _; rfl
          | some v => intro hl; simp at hl
        | some u =>
          cases resolveLoop E (resolve E anchors n) e e.AuthorityHints 0
            (if e.AuthorityHints.length > 0 then
              some (List.replicate e.AuthorityHints.length trustTree.zero) else auths) s0 with
          | none => intro hl; simp at hl
          | some v =>
            intro hl
            simp only [Option.map_some', Option.some.injEq] at hl
            simp only [Option.map_some', hl]

/-- Calling `resolve` again on a node, with the authorities a first call built replaced by any
list derived from them, returns what it returns on the node without authorities. -/
theorem resolve_again {σ : Type} (E : Env σ) (anchors : List TrustAnchor) (fuel : Nat)
    (e : EntityStatement) (sub : Option EntityStatement) (auths1 : Option (List trustTree))
    (s s1 : σ)
    (h : resolve E anchors fuel (.mk (some e) sub none) s = some (.mk (some e) sub auths1, s1))
    (f : List trustTree → List trustTree) (s3 : σ) :
    resolve E anchors fuel (.mk (some e) sub (auths1.map f)) s3
      = resolve E anchors fuel (.mk (some e) sub none) s3 := by
  cases fuel with
  | zero => rfl
  | succ n =>
    rw [resolve] at h
    rw [resolve, resolve]
    split at h
    · simp only [Option.some.injEq, Prod.mk.injEq, trustTree.mk.injEq, true_and] at h
      obtain ⟨hnone, _⟩ := h
      rw [← hnone]
      rfl
    · by_cases hh : e.AuthorityHints = []
      · simp only [hh, List.length_nil, gt_iff_lt, Nat.lt_irrefl, if_false, resolveLoop,
          Option.some.injEq, Prod.mk.injEq, trustTree.mk.injEq, true_and] at h
        obtain ⟨hnone, _⟩ := h
        rw [← hnone]
        rfl
      · rename_i hanch
        have hpos : e.AuthorityHints.length > 0 := List.length_pos.mpr hh
        simp only [hpos, if_true, hanch, Bool.false_eq_true, if_false]

/-- With stable collaborators, `Resolve` on a resolver that has gone through `Resolve` and
`VerifySignatures` once rebuilds the tree the first `Resolve` built. -/
theorem Resolve_again {σ : Type} (E : Env σ) (hst : Stable E) (anchors : List TrustAnchor)
    (starting : String) (types : List String) (fuel : Nat) (s s1 : σ) (r1 r2 : TrustResolver)
    (h1 : (TrustResolver.new anchors starting types).Resolve E fuel s = some (r1, s1))
    (h2 : r1.VerifySignatures E.Verify = some r2) (s3 : σ) :
    ∃ s2, r2.Resolve E fuel s3 = some (r1, s2) := by
  unfold TrustResolver.Resolve at h1
  simp only [TrustResolver.new] at h1
  rcases hg : GetEntityConfiguration E starting s with ⟨res, s0⟩
  rcases hg3 : GetEntityConfiguration E starting s3 with ⟨res3, s4⟩
  have hres : res3 = res := by
    have h := hst.1 starting s3 s
    rw [hg, hg3] at h
    exact h
  subst hres
  rw [hg] at h1
  cases res3 with
  | error err =>
    simp only [Option.some.injEq, Prod.mk.injEq] at h1
    obtain ⟨rfl, rfl⟩ := h1
    simp only [TrustResolver.VerifySignatures, trustTree.zero, verifySignatures_mk, anchorCase,
      Option.some.injEq] at h2
    subst h2
    refine ⟨s4, ?_⟩
    unfold TrustResolver.Resolve
    simp only [hg3]
    rfl
  | ok fetched =>
    simp only [trustTree.zero, trustTree.Subordinate, trustTree.Authorities] at h1
    split at h1
    · simp at h1
    · rename_i t1 s5 hres
      simp only [Option.some.injEq, Prod.mk.injEq] at h1
      obtain ⟨rfl, rfl⟩ := h1
      obtain ⟨auths1, rfl, _, _⟩ := resolve_shape E anchors (fun _ => True) (fun _ => True)
        (Accepts.trivial E) fuel _ none s0 _ t1 hres
      unfold TrustResolver.VerifySignatures at h2
      simp only at h2
      split at h2
      · simp at h2
      · rename_i b t2 hv
        simp only [Option.some.injEq] at h2
        subst h2
        obtain ⟨rfl, _⟩ := verifySignatures_recursive_aux E.Verify anchors _ none auths1 b t2
          rfl hv
        have hind := resolve_indep E hst anchors fuel
          (.mk (some (applyTypes E types fetched)) none none) s4 s0
        rw [hres] at hind
        cases hr4 : resolve E anchors fuel (.mk (some (applyTypes E types fetched)) none none)
            s4 with
        | none => rw [hr4] at hind; simp at hind
        | some u =>
          rw [hr4] at hind
          obtain ⟨t4, s6⟩ := u
          simp only [Option.map_some', Option.some.injEq] at hind
          subst hind
          refine ⟨s6, ?_⟩
          unfold TrustResolver.Resolve
          simp only [hg3, trustTree.Subordinate, trustTree.Authorities]
          rw [resolve_again E anchors fuel _ none auths1 s0 _ hres, hr4]

/-- C13: with stable collaborators (the same answer to the same request in every state of the
world) and a clock that does not move, running `Resolve`, `VerifySignatures`, `Chains` a second
time on a resolver whose first run started fresh returns the very list of chains of the first
run, which is therefore unordered-equal to it in the sense of `SliceEqual` (the chains of the
model hold strings, integers and lists, values that are deeply equal to themselves), and leaves the
resolver as the first run left it. -/
theorem second_run_same_chains {σ : Type} (E : Env σ) (hst : Stable E)
    (anchors : List TrustAnchor) (starting : String) (types : List String) (fuel : Nat)
    (s s1 : σ) (cs : List TrustChain) (r2 : TrustResolver)
    (h : (TrustResolver.new anchors starting types).runKeep E fuel s = some (cs, r2, s1)) :
    ∃ cs2 s2, r2.runKeep E fuel s1 = some (cs2, r2, s2) ∧ cs2 = cs
      ∧ SliceEqual (DeepEqual allSelfEqual) (.slice cs2) (.slice cs) = true := by
  unfold TrustResolver.runKeep at h
  split at h
  · simp at h
  · rename_i r1 s0 hres
    split at h
    · simp at h
    · rename_i r3 hver
      simp only [Option.some.injEq, Prod.mk.injEq] at h
      obtain ⟨rfl, rfl, rfl⟩ := h
      obtain ⟨s2, hagain⟩ := Resolve_again E hst anchors starting types fuel s _ r1 _ hres hver
        s0
      refine ⟨r3.Chains, s2, ?_, rfl, ?_⟩
      · unfold TrustResolver.runKeep
        simp only [hagain, hver]
      · exact (SliceEqual_slice_iff _ _ _).mpr ⟨rfl, fun _ hx => ⟨rfl, hx⟩⟩

/-- C13 on the demonstration federation, whose collaborators are stable. -/
theorem second_run_same_chains_witness :
    Stable demoEnv
    ∧ (TrustResolver.new demoAnchors "e" []).runKeep demoEnv 3 ()
        = some ([[some eCfg, some iAboutE, some taAboutI]],
            { TrustAnchors := demoAnchors, StartingEntity := "e", Types := [],
              trustTree := .mk (some eCfg) none (some [intermediateNode]) }, ())
    ∧ ∃ cs2 s2, TrustResolver.runKeep demoEnv 3
          { TrustAnchors := demoAnchors, StartingEntity := "e", Types := [],
            trustTree := .mk (some eCfg) none (some [intermediateNode]) } ()
        = some (cs2,
            { TrustAnchors := demoAnchors, StartingEntity := "e", Types := [],
              trustTree := .mk (some eCfg) none (some [intermediateNode]) }, s2)
      ∧ cs2 = [[some eCfg, some iAboutE, some taAboutI]]
      ∧ SliceEqual (DeepEqual allSelfEqual) (.slice cs2)
          (.slice [[some eCfg, some iAboutE, some taAboutI]]) = true :=
  have hst : Stable demoEnv := ⟨fun _ _ _ => rfl, fun _ _ _ _ _ => rfl, fun _ _ => rfl⟩
  ⟨hst, rfl,
    second_run_same_chains demoEnv hst demoAnchors "e" [] 3 () ()
      [[some eCfg, some iAboutE, some taAboutI]]
      { TrustAnchors := demoAnchors, StartingEntity := "e", Types := [],
        trustTree := .mk (some eCfg) none (some [intermediateNode]) } rfl⟩

/-! ## The anchor case with an empty key set -/

/-- The key set the code chooses is the one the specification words, unless the anchor is
configured with a key set that holds no key. -/
theorem anchorKeys_eq_anchorKeysNonEmpty (ta : TrustAnchor) (cfg : EntityStatement)
    (h : ta.JWKS.Set ≠ some []) : anchorKeys ta cfg = anchorKeysNonEmpty ta cfg := by
  unfold anchorKeys anchorKeysNonEmpty
  rcases hs : ta.JWKS.Set with _ | l
  · rfl
  · cases l with
    | nil => exact absurd hs h
    | cons k ks => rfl

/-- C7, as stated, fails for an anchor configured with a key set that holds no key: the code tests
the key set for nil only, so it checks both statements of the anchor node against the empty set
and returns false, whereas the key set of the claim is then the one of the configuration of the
anchor, under which both statements verify. The entity `e` of the demonstration federation has one
chain with the anchor left without key set and none with the empty one. -/
theorem verifySignatures_anchor_empty_key_set :
    [emptyKeyAnchor].find? (anchorMatches taCfg taAboutI) = some emptyKeyAnchor
    ∧ verifySignatures demoEnv.Verify [emptyKeyAnchor] anchorNode = some (false, anchorNode)
    ∧ anchorKeys emptyKeyAnchor taCfg = JWKS.mk (some [])
    ∧ anchorKeysNonEmpty emptyKeyAnchor taCfg = taCfg.JWKS
    ∧ (demoEnv.Verify taCfg (anchorKeysNonEmpty emptyKeyAnchor taCfg)
        && demoEnv.Verify taAboutI (anchorKeysNonEmpty emptyKeyAnchor taCfg)) = true
    ∧ verifySignatures demoEnv.Verify [emptyKeyAnchor] anchorNode
        ≠ some (demoEnv.Verify taCfg (anchorKeysNonEmpty emptyKeyAnchor taCfg)
            && demoEnv.Verify taAboutI (anchorKeysNonEmpty emptyKeyAnchor taCfg), anchorNode)
    ∧ (TrustResolver.new demoAnchors "e" []).run demoEnv 3 ()
        = some ([[some eCfg, some iAboutE, some taAboutI]], ())
    ∧ (TrustResolver.new [emptyKeyAnchor] "e" []).run demoEnv 3 () = some ([], ()) :=
  ⟨by decide, rfl, rfl, rfl, by decide,
    (fun h => Bool.noConfusion (congrArg (fun o => (o.map Prod.fst).getD true) h)), rfl, rfl⟩

end OidFed
